import Mathlib

/-
Shallow embedding of the `utreexo` crate (devashishdxt/utreexo).

Conventions used throughout:

* The 32-byte digests produced by the domain-separated hash functions of the
  source (`hash_leaf(v) = H(0x00 ‖ v)`, `hash_intermediate(a, b) = H(0x01 ‖ a ‖ b)`)
  are modelled by the free term algebra `Hash`: `Hash.leaf v` stands for
  `hash_leaf(v)`, `Hash.node a b` for `hash_intermediate(a, b)` and `Hash.raw w`
  for an arbitrary hash constant (such as `Hash::from([1; HASH_SIZE])`).
  This is the usual idealised collision-free model of a cryptographic hash.
* Byte strings (`T: AsRef<[u8]>` leaf values) are `List Nat`.
* `usize` arithmetic is `Nat`; a Rust panic (failed `unwrap`/`expect`,
  out-of-bounds indexing or slicing, or an underflowing index computation that
  would make the subsequent indexing fail) is modelled by returning `none`,
  so every fallible source function is embedded as an `Option`-valued one.
* `bit_vec::BitVec` paths are `List Bool`; `false` is `Direction::Left` and
  `true` is `Direction::Right`, exactly as in `impl From<bool> for Direction`
  (path.rs).  Paths run from root to leaf, sibling-hash lists of `Proof`
  (proof.rs) run from top to bottom, as documented in the source.
* Loops are written as structural recursions, with an explicit fuel where the
  source loop is not structural (the fuel is always provably sufficient).
-/

set_option maxRecDepth 8000

namespace Utx

/-- Free term algebra of digests: `leaf` is `hash_leaf`, `node` is
`hash_intermediate`, `raw` is an arbitrary 32-byte constant. -/
inductive Hash where
  | leaf : List Nat → Hash
  | node : Hash → Hash → Hash
  | raw : List Nat → Hash
deriving DecidableEq

/-- Model of `hash_leaf` (lib.rs): digest of `0x00 ‖ value`. -/
def hash_leaf (value : List Nat) : Hash := Hash.leaf value

/-- Model of `hash_intermediate` (lib.rs): digest of `0x01 ‖ a ‖ b`. -/
def hash_intermediate (a b : Hash) : Hash := Hash.node a b

/-- Model of `hash_many_leaves` (lib.rs): the leaf hashes of many values. -/
def hash_many_leaves (values : List (List Nat)) : List Hash :=
  values.map hash_leaf

/-- Model of `num_nodes` (lib.rs): number of nodes of a tree with the given
number of leaves (`2n - 1`, and `0` for `0`). -/
def num_nodes (num_leaves : Nat) : Nat :=
  if num_leaves = 0 then 0 else 2 * num_leaves - 1

/-- Auxiliary fuel-based recursion for `trailing_zeros`. -/
def tzAux : Nat → Nat → Nat
  | 0, _ => 0
  | fuel + 1, n =>
    if n = 0 then 64
    else if n % 2 = 1 then 0
    else tzAux fuel (n / 2) + 1

/-- Model of `usize::trailing_zeros` as used by `height` (lib.rs).  For `0` it
returns the `usize` bit width 64 (no modelled call site ever passes `0`:
`height` is only applied to leaf counts of the form `len / 2 + 1 ≥ 1`).  The
fuel `n + 1` always suffices because the argument at least halves. -/
def trailing_zeros (n : Nat) : Nat := tzAux (n + 1) n

/-- Model of `height` (lib.rs): height of a tree with the given number of
leaves, i.e. the number of trailing zeros of the leaf count. -/
def height (num_leaves : Nat) : Nat := trailing_zeros num_leaves

/-- Model of `Path::for_height_and_num` (path.rs): the root-to-leaf path of
leaf number `num` in a tree of the given height (bits of `num` from the most
significant of the low `height` bits down to bit 0). -/
def for_height_and_num (h num : Nat) : List Bool :=
  (List.range h).reverse.map (fun k => num.testBit k)

/-- Model of `Path::for_height` (path.rs): paths of all leaves of a tree of
the given height, in leaf order. -/
def for_height (h : Nat) : List (List Bool) :=
  (List.range (2 ^ h)).map (for_height_and_num h)

/-- Model of `Path::leaves` (path.rs): `2 ^ height`. -/
def path_leaves (path : List Bool) : Nat := 2 ^ path.length

/-- Model of `Proof` (proof.rs): a root-to-leaf path, the leaf value, and the
sibling hashes ordered from top to bottom. -/
structure Proof where
  path : List Bool
  leaf_value : List Nat
  sibling_hashes : List Hash
deriving DecidableEq

/-- The `for step in path` loop of `Proof::verify` (proof.rs): the path list
here is already reversed (leaf to root) and the sibling list is already
reversed (bottom to top); an exhausted sibling iterator (`.next().unwrap()`)
is a panic, hence `none`. -/
def verifyFold : List Bool → List Hash → Hash → Option Hash
  | [], _, h => some h
  | _ :: _, [], _ => none
  | d :: ds, s :: ss, h =>
    verifyFold ds ss (if d then hash_intermediate s h else hash_intermediate h s)

/-- Model of `Proof::verify` (proof.rs).  Rust returns `bool` but can panic;
`none` is the panic. -/
def Proof.verify (p : Proof) (root_hash : Hash) : Option Bool :=
  if p.sibling_hashes.isEmpty then
    some (decide (root_hash = hash_leaf p.leaf_value))
  else
    (verifyFold p.path.reverse p.sibling_hashes.reverse
        (hash_leaf p.leaf_value)).map (fun h => decide (h = root_hash))

/-- Specification-side fold of claim C1: start from `hash_leaf(leaf_value)`,
walk the path leaf to root and consume the sibling hashes bottom to top,
hashing the accumulator on the left when the direction is `Left` (`false`). -/
def specFoldSteps : List (Bool × Hash) → Hash → Hash
  | [], h => h
  | (d, s) :: rest, h =>
    specFoldSteps rest (if d then hash_intermediate s h else hash_intermediate h s)

/-- Specification-side recomputed root of a proof (claim C1): fold the
reversed path against the reversed (bottom-to-top) sibling list. -/
def specRoot (p : Proof) : Hash :=
  specFoldSteps (p.path.reverse.zip p.sibling_hashes.reverse)
    (hash_leaf p.leaf_value)

/-- Model of `TreeRef::nodes` (tree.rs): length of the slice. -/
def TreeRef.nodes (t : List Hash) : Nat := t.length

/-- Model of `TreeRef::leaves` (tree.rs): `(nodes / 2) + 1`. -/
def TreeRef.leaves (t : List Hash) : Nat := t.length / 2 + 1

/-- Model of `TreeRef::height` (tree.rs). -/
def TreeRef.height (t : List Hash) : Nat := Utx.height (TreeRef.leaves t)

/-- Model of `TreeRef::root_hash` (tree.rs): `self.0[nodes - 1]`, the last
element of the slice; indexing an empty slice is a panic. -/
def root_hash (t : List Hash) : Option Hash := t.get? (t.length - 1)

/-- Model of `TreeRef::split` (tree.rs): left subtree `[0, (n-1)/2)`, right
subtree `[(n-1)/2, n-1)`; `none` when the slice has at most one node. -/
def TreeRef.split (t : List Hash) : Option (List Hash × List Hash) :=
  if 1 < t.length then
    let bp := (t.length - 1) / 2
    some (t.take bp, (t.drop bp).take (t.length - 1 - bp))
  else none

/-- The index-step list `(1..height).chain((1..height - 1).rev())` of
`TreeRef::leaf_hashes` (tree.rs), translated verbatim (this walk is the
source of the height ≥ 4 leaf-enumeration bug). -/
def chainIdx (h : Nat) : List Nat :=
  List.range' 1 (h - 1) ++ (List.range' 1 (h - 2)).reverse

/-- The index-collecting loop of `TreeRef::leaf_hashes` (tree.rs): each round
reads `self.0[index]` and `self.0[index + 1]` and advances by `i + 2`; the
trailing round after the loop reads two more. Out-of-bounds reads panic. -/
def leafHashesLoop : List Nat → Nat → List Hash → Option (List Hash)
  | [], index, t => do
    let a ← t.get? index
    let b ← t.get? (index + 1)
    some [a, b]
  | i :: is, index, t => do
    let a ← t.get? index
    let b ← t.get? (index + 1)
    let rest ← leafHashesLoop is (index + i + 2) t
    some (a :: b :: rest)

/-- Model of `TreeRef::leaf_hashes` (tree.rs). -/
def leaf_hashes (t : List Hash) : Option (List Hash) :=
  if TreeRef.leaves t = 1 then some t
  else leafHashesLoop (chainIdx (TreeRef.height t)) 0 t

/-- Model of `TreeRef::leaf_paths` (tree.rs). -/
def leaf_paths (t : List Hash) : List (List Bool) :=
  for_height (TreeRef.height t)

/-- The splitting walk of `TreeRef::prove` (tree.rs): on `Left` record the
right subtree's root and descend left, on `Right` record the left's root and
descend right; a failed `split` (`expect`) or `root_hash` is a panic. -/
def proveLoop : List Bool → List Hash → Option (List Hash × List Hash)
  | [], t => some ([], t)
  | d :: ds, t => do
    let (l, r) ← TreeRef.split t
    let sib ← root_hash (if d then l else r)
    let (sibs, fin) ← proveLoop ds (if d then r else l)
    some (sib :: sibs, fin)

/-- Model of `TreeRef::prove` (tree.rs).  The outer `Option` is a panic (the
`assert_eq!` on heights, or a failed split), the inner one is the `Option`
return value of the source. -/
def TreeRef.prove (t : List Hash) (leaf_value : List Nat) (path : List Bool) :
    Option (Option Proof) :=
  if TreeRef.height t ≠ path.length then none
  else do
    let (sibs, fin) ← proveLoop path t
    let fr ← root_hash fin
    if fr = hash_leaf leaf_value then some (some ⟨path, leaf_value, sibs⟩)
    else some none

/-- The scan building `new_hashes` in `TreeRefMut::swap` (tree.rs): the steps
are the reversed path zipped with the reversed sibling list. -/
def buildNewHashes : List (Bool × Hash) → Hash → List Hash
  | [], h => [h]
  | (d, s) :: rest, h =>
    h :: buildNewHashes rest (if d then hash_intermediate s h else hash_intermediate h s)

/-- The write-back loop of `TreeRefMut::swap` (tree.rs): on `Left` the next
index is `change_index - leaves`, on `Right` it is `change_index - 1`, then
`leaves` halves and the new hash is written.  An underflowing index
computation or an out-of-bounds write is a panic. -/
def swapWrites : List (Bool × Hash) → Nat → Nat → List Hash → Option (List Hash)
  | [], _, _, t => some t
  | (d, nh) :: rest, ci, lv, t =>
    if ci < (if d then 1 else lv) then none
    else if ci - (if d then 1 else lv) < t.length then
      swapWrites rest (ci - (if d then 1 else lv)) (lv / 2)
        (t.set (ci - (if d then 1 else lv)) nh)
    else none

/-- Model of `TreeRefMut::swap` (tree.rs). -/
def TreeRefMut.swap (t : List Hash) (p : Proof) (leaf_hash : Hash) :
    Option (List Hash × Bool) := do
  let root ← root_hash t
  let ok ← Proof.verify p root
  if !ok then some (t, false)
  else
    let nh := buildNewHashes (p.path.reverse.zip p.sibling_hashes.reverse) leaf_hash
    match nh.reverse with
    | [] => none
    | topHash :: restRev =>
      let t1 := t.set (t.length - 1) topHash
      let t2 ← swapWrites (p.path.zip restRev) (t.length - 1) (TreeRef.leaves t) t1
      some (t2, true)

/-- Lookup in the model of `BTreeMap<Hash, Path>` (association list with
unique keys; only `get`, `contains_key`, `insert`, `remove` and `extend` are
used by the source, so the iteration order is irrelevant). -/
def mapGet (m : List (Hash × List Bool)) (k : Hash) : Option (List Bool) :=
  (m.find? (fun e => e.1 = k)).map (fun e => e.2)

/-- Model of `BTreeMap::contains_key`. -/
def mapContains (m : List (Hash × List Bool)) (k : Hash) : Bool :=
  (mapGet m k).isSome

/-- Model of `BTreeMap::insert`: replace the binding if the key is present,
append it otherwise. -/
def mapInsert (m : List (Hash × List Bool)) (k : Hash) (v : List Bool) :
    List (Hash × List Bool) :=
  match m with
  | [] => [(k, v)]
  | e :: rest => if e.1 = k then (k, v) :: rest else e :: mapInsert rest k v

/-- Model of `BTreeMap::remove`. -/
def mapRemove (m : List (Hash × List Bool)) (k : Hash) : List (Hash × List Bool) :=
  m.filter (fun e => ¬ e.1 = k)

/-- Model of `BTreeMap::extend`: repeated insertion. -/
def mapExtend (m : List (Hash × List Bool)) (kvs : List (Hash × List Bool)) :
    List (Hash × List Bool) :=
  kvs.foldl (fun acc kv => mapInsert acc kv.1 kv.2) m

/-- Interval-halving loop of `slice::binary_search_by` (specialised to the
`Vec<usize>` leaf distribution).  The fuel is the interval width plus one,
which always suffices since the interval shrinks at every step. -/
def binSearchGo (l : List Nat) (f : Nat → Ordering) : Nat → Nat → Nat → Except Nat Nat
  | 0, left, _ => Except.error left
  | fuel + 1, left, right =>
    if left < right then
      let mid := left + (right - left) / 2
      match f (l.getD mid 0) with
      | Ordering.lt => binSearchGo l f fuel (mid + 1) right
      | Ordering.gt => binSearchGo l f fuel left mid
      | Ordering.eq => Except.ok mid
    else Except.error left

/-- Model of `slice::binary_search_by`: `ok` is the index of a comparator
match, `error` the insertion point. -/
def binary_search_by (l : List Nat) (f : Nat → Ordering) : Except Nat Nat :=
  binSearchGo l f (l.length + 1) 0 l.length

/-- The comparator `|p| p.cmp(&leaves).reverse()` used by forest.rs. -/
def cmpRev (leaves p : Nat) : Ordering := (compare p leaves).swap

/-- Model of `Forest` (forest.rs): leaf count, flat node vector, per-tree
leaf counts, and the leaf-hash-to-path map. -/
structure Forest where
  leaves : Nat
  forest : List Hash
  leaf_distribution : List Nat
  path_map : List (Hash × List Bool)
deriving DecidableEq

/-- Model of `Forest::new` / `Forest::default`. -/
def Forest.new : Forest := ⟨0, [], [], []⟩

/-- Model of `Forest::nodes`. -/
def Forest.nodes (f : Forest) : Nat := f.forest.length

/-- Sum `Σ num_nodes` over the first `index` entries of the leaf
distribution, as computed by `get_tree_ref_with_index` (forest.rs). -/
def nodesBefore (dist : List Nat) (index : Nat) : Nat :=
  ((dist.take index).map num_nodes).sum

/-- Model of `Forest::get_tree_ref_with_index` (and its `_mut` twin): the
slice `forest[nodes_before .. nodes_before + nodes_in_tree]`; an
out-of-bounds distribution index or slice bound is a panic. -/
def getTreeRefAt (f : Forest) (index : Nat) : Option (List Hash) := do
  let lv ← f.leaf_distribution.get? index
  let ni := num_nodes lv
  let nb := nodesBefore f.leaf_distribution index
  if nb + ni ≤ f.forest.length then some ((f.forest.drop nb).take ni) else none

/-- Model of `Forest::is_compressible` (forest.rs). -/
def is_compressible (f : Forest) : Bool :=
  2 ≤ f.leaf_distribution.length &&
    (f.leaf_distribution.getD (f.leaf_distribution.length - 1) 0 =
      f.leaf_distribution.getD (f.leaf_distribution.length - 2) 0)

/-- One iteration of the `while` loop of `Forest::compress` (forest.rs):
hash the two rightmost roots, push the result, pop the last distribution
entry and add it to the new last one. -/
def compressStep (f : Forest) : Option Forest := do
  let left ← getTreeRefAt f (f.leaf_distribution.length - 2)
  let right ← getTreeRefAt f (f.leaf_distribution.length - 1)
  let lr ← root_hash left
  let rr ← root_hash right
  let rlv ← f.leaf_distribution.getLast?
  let dist1 := f.leaf_distribution.dropLast
  if dist1.length = 0 then none
  else
    let li := dist1.length - 1
    some { f with forest := f.forest ++ [hash_intermediate lr rr],
                  leaf_distribution := dist1.set li (dist1.getD li 0 + rlv) }

/-- Fuel-based model of the `while is_compressible` loop of
`Forest::compress`; each iteration shortens the distribution by one, so the
initial distribution length is always enough fuel. -/
def compressFuel : Nat → Forest → Option Forest
  | 0, f => some f
  | fuel + 1, f =>
    if is_compressible f then do
      let f1 ← compressStep f
      compressFuel fuel f1
    else some f

/-- Model of `Forest::compress` (forest.rs). -/
def Forest.compress (f : Forest) : Option Forest :=
  compressFuel f.leaf_distribution.length f

/-- Model of `Forest::update_paths_for_index` (forest.rs). -/
def update_paths_for_index (f : Forest) (index : Nat) : Option Forest := do
  let tree ← getTreeRefAt f index
  let lh ← leaf_hashes tree
  let lp := leaf_paths tree
  some { f with path_map := mapExtend f.path_map (lh.zip lp) }

/-- Model of `Forest::update_paths` (forest.rs). -/
def update_paths (f : Forest) : Option Forest :=
  update_paths_for_index f (f.leaf_distribution.length - 1)

/-- Model of `Forest::insert_hash` (forest.rs): a no-op on a present hash,
otherwise push a singleton tree, compress and update paths. -/
def Forest.insert_hash (f : Forest) (h : Hash) : Option Forest :=
  if mapContains f.path_map h then some f
  else do
    let f1 : Forest :=
      { f with forest := f.forest ++ [h], leaves := f.leaves + 1,
               leaf_distribution := f.leaf_distribution ++ [1] }
    let f2 ← f1.compress
    update_paths f2

/-- Model of `Forest::insert` (forest.rs). -/
def Forest.insert (f : Forest) (value : List Nat) : Option Forest :=
  f.insert_hash (hash_leaf value)

/-- Model of `Forest::extend` (forest.rs). -/
def Forest.extend (f : Forest) (values : List (List Nat)) : Option Forest :=
  (hash_many_leaves values).foldlM Forest.insert_hash f

/-- Model of `Forest::prove` (forest.rs).  The outer `Option` is a panic
(the `unwrap` of a failed binary search, or a panic inside `TreeRef::prove`),
the inner one is the source's `Option<Proof>`. -/
def Forest.prove (f : Forest) (value : List Nat) : Option (Option Proof) :=
  match mapGet f.path_map (hash_leaf value) with
  | none => some none
  | some path =>
    match binary_search_by f.leaf_distribution (cmpRev (path_leaves path)) with
    | Except.error _ => none
    | Except.ok index => do
      let tree ← getTreeRefAt f index
      TreeRef.prove tree value path

/-- Model of `Forest::verify` (forest.rs). -/
def Forest.verify (f : Forest) (p : Proof) : Option Bool :=
  let leaves := path_leaves p.path
  match binary_search_by f.leaf_distribution (cmpRev leaves) with
  | Except.error _ => some false
  | Except.ok index => do
    let root ← f.forest.get? (nodesBefore f.leaf_distribution index + num_nodes leaves - 1)
    Proof.verify p root

/-- Model of `Forest::delete` (forest.rs).  `none` is a panic; otherwise the
pair is the post-call forest and the returned boolean. -/
def Forest.delete (f : Forest) (p : Proof) : Option (Forest × Bool) :=
  if f.leaf_distribution.length = 0 then some (f, false)
  else do
    let last_tree ← getTreeRefAt f (f.leaf_distribution.length - 1)
    let last_h := TreeRef.height last_tree
    if f.forest.length < last_h + 1 then none
    else do
      let hswap ← f.forest.get? (f.forest.length - last_h - 1)
      let leaves := path_leaves p.path
      match binary_search_by f.leaf_distribution (cmpRev leaves) with
      | Except.error _ => some (f, false)
      | Except.ok index => do
        let lv ← f.leaf_distribution.get? index
        let ni := num_nodes lv
        let nb := nodesBefore f.leaf_distribution index
        if f.forest.length < nb + ni then none
        else do
          let tree := (f.forest.drop nb).take ni
          let (tree1, ok) ← TreeRefMut.swap tree p hswap
          if !ok then some (f, false)
          else
            let forest1 := f.forest.take nb ++ tree1 ++ f.forest.drop (nb + ni)
            if forest1.length < last_h + 1 then none
            else
              let forest2 := forest1.take (forest1.length - (last_h + 1))
              let dist2 := f.leaf_distribution.dropLast ++
                (List.range last_h).reverse.map (fun i => 2 ^ i)
              let leaves2 := if f.leaves = 0 then 2 ^ 64 - 1 else f.leaves - 1
              let pm2 := mapRemove (mapInsert f.path_map hswap p.path)
                (hash_leaf p.leaf_value)
              let f2 : Forest := ⟨leaves2, forest2, dist2, pm2⟩
              let f3 ← (List.range last_h).foldlM
                (fun acc i =>
                  if acc.leaf_distribution.length < i + 1 then none
                  else update_paths_for_index acc (acc.leaf_distribution.length - 1 - i))
                f2
              some (f3, true)

/-- External operations on a forest, for reachable-state invariants. -/
inductive Op where
  | ins : List Nat → Op
  | ext : List (List Nat) → Op
  | del : Proof → Op

/-- Apply one operation. -/
def applyOp (f : Forest) : Op → Option Forest
  | Op.ins v => f.insert v
  | Op.ext vs => f.extend vs
  | Op.del p => (f.delete p).map (fun r => r.1)

/-- Apply a list of operations to a forest. -/
def applyOps (ops : List Op) (f : Forest) : Option Forest :=
  ops.foldlM applyOp f

/-- Modelled from the spec: the unparameterised `Proof` type consumed by
accumulator.rs is not under src (accumulator.rs belongs to a crate
generation whose `Proof`, `Utreexo` trait, `MemoryForest` and `Prover` are
missing); per the spec's data model a proof "carries a path, the leaf value,
and the sibling hashes along the path from bottom to top". -/
structure AProof where
  path : List Bool
  leaf_value : List Nat
  sibling_hashes : List Hash
deriving DecidableEq

/-- Modelled from the spec: `Proof::verify` for the accumulator's proof type
(spec section 4.3): reject a sibling-list/path-height mismatch, then fold
from `hash_leaf(leaf_identity)` leaf to root, consuming the (bottom-to-top)
sibling list in the same order, and compare with the root hash. -/
def AProof.verify (p : AProof) (root : Hash) : Bool :=
  if p.sibling_hashes.length ≠ p.path.length then false
  else specFoldSteps (p.path.reverse.zip p.sibling_hashes) (hash_leaf p.leaf_value) = root

/-- Model of `MemoryAccumulator` (accumulator.rs): per-height optional root
hashes. -/
structure MemoryAccumulator where
  slots : List (Option Hash)
deriving DecidableEq

/-- Model of `MemoryAccumulator::verify` (accumulator.rs): the slot vector
must reach height `h`, slot `h` must be occupied, and the proof must verify
against it. -/
def MemoryAccumulator.verify (acc : MemoryAccumulator) (p : AProof) : Bool :=
  if acc.slots.length < p.path.length + 1 then false
  else
    match acc.slots.getD p.path.length none with
    | some root => p.verify root
    | none => false

/-- The `for hash in self.0.iter_mut()` loop of `MemoryAccumulator::insert`
(accumulator.rs): carry the new hash over occupied slots (clearing them),
drop it into the first free slot, or push it at the end. -/
def accInsertLoop : Hash → List (Option Hash) → List (Option Hash)
  | h, [] => [some h]
  | h, none :: rest => some h :: rest
  | h, some old :: rest => none :: accInsertLoop (hash_intermediate old h) rest

/-- Model of `MemoryAccumulator::insert` (accumulator.rs). -/
def MemoryAccumulator.insert (acc : MemoryAccumulator) (v : List Nat) :
    MemoryAccumulator :=
  ⟨accInsertLoop (hash_leaf v) acc.slots⟩

/-- Model of repeated accumulator insertion of many values. -/
def MemoryAccumulator.insertMany (acc : MemoryAccumulator)
    (values : List (List Nat)) : MemoryAccumulator :=
  values.foldl MemoryAccumulator.insert acc

/-- The `for (hash, sibling) in self.0.iter_mut().take(height).zip(...)` loop
of `MemoryAccumulator::delete` (accumulator.rs), on the first `height` slots:
returns the rewritten prefix and the final carry. -/
def accDeleteLoop : List (Option Hash) → List Hash → Option Hash →
    List (Option Hash) × Option Hash
  | slots, [], carry => (slots, carry)
  | [], _, carry => ([], carry)
  | s :: rest, sib :: sibs, carry =>
    match carry with
    | some a =>
      let r := accDeleteLoop rest sibs (some (hash_intermediate sib a))
      (s :: r.1, r.2)
    | none =>
      match s with
      | none =>
        let r := accDeleteLoop rest sibs none
        (some sib :: r.1, r.2)
      | some old =>
        let r := accDeleteLoop rest sibs (some (hash_intermediate sib old))
        (none :: r.1, r.2)

/-- Model of `MemoryAccumulator::delete` (accumulator.rs). -/
def MemoryAccumulator.delete (acc : MemoryAccumulator) (p : AProof) :
    MemoryAccumulator × Bool :=
  if ¬ acc.verify p then (acc, false)
  else
    let h := p.path.length
    let r := accDeleteLoop (acc.slots.take h) p.sibling_hashes none
    (⟨(r.1 ++ acc.slots.drop h).set h r.2⟩, true)

/-- Specification-side step of claim C5, heights walked by index: if the
carry is absent and slot `k` is empty, the sibling subtree lands in slot `k`;
if the carry is absent and slot `k` is occupied, the carry becomes
`hash_intermediate(s_k, slot[k])` and slot `k` is cleared; otherwise the
carry becomes `hash_intermediate(s_k, carry)`. -/
def specStep (st : List (Option Hash) × Option Hash) (ks : Nat × Hash) :
    List (Option Hash) × Option Hash :=
  match st.2 with
  | some a => (st.1, some (hash_intermediate ks.2 a))
  | none =>
    match st.1.getD ks.1 none with
    | none => (st.1.set ks.1 (some ks.2), none)
    | some old => (st.1.set ks.1 none, some (hash_intermediate ks.2 old))

/-- Specification-side deletion of claim C5: walk heights `k = 0 … h-1` with
the sibling at height `k`, then place the final carry into slot `h`. -/
def specDelete (slots : List (Option Hash)) (p : AProof) : List (Option Hash) :=
  let h := p.path.length
  let r := ((List.range h).zip p.sibling_hashes).foldl specStep (slots, none)
  r.1.set h r.2

/-- Slot height `k` occupancy as `Nat`-weight, low slot first: the number an
accumulator slot vector denotes in binary. -/
def natOfSlots : List (Option Hash) → Nat
  | [] => 0
  | s :: rest => (if s.isSome then 1 else 0) + 2 * natOfSlots rest

/-- Model of `BalancedMerkleTree` (balanced_merkle_tree.rs): the node vector,
laid out row-wise from the leaf row up to the root. -/
structure BalancedMerkleTree where
  nodes : List Hash
deriving DecidableEq

/-- Model of `BalancedMerkleTree::leaves`: `(len + 1) / 2`. -/
def BalancedMerkleTree.leaves (t : BalancedMerkleTree) : Nat :=
  (t.nodes.length + 1) / 2

/-- Model of `BalancedMerkleTree::height`: trailing zeros of the leaf count. -/
def BalancedMerkleTree.height (t : BalancedMerkleTree) : Nat :=
  trailing_zeros t.leaves

/-- Model of `BalancedMerkleTree::new_single` (balanced_merkle_tree.rs). -/
def BalancedMerkleTree.new_single (v : List Nat) : BalancedMerkleTree :=
  ⟨[hash_leaf v]⟩

/-- One row-combining pass of `BalancedMerkleTree::new`: hash consecutive
pairs of the previous row. -/
def pairUp : List Hash → List Hash
  | a :: b :: rest => hash_intermediate a b :: pairUp rest
  | _ => []

/-- The per-height rows of `BalancedMerkleTree::new` above the leaf row. -/
def rowsFrom : Nat → List Hash → List Hash
  | 0, _ => []
  | h + 1, row =>
    let next := pairUp row
    next ++ rowsFrom h next

/-- Model of `BalancedMerkleTree::new` (balanced_merkle_tree.rs): `none`
unless the number of leaves is a power of two no greater than
`usize::max_value() / 2`. -/
def BalancedMerkleTree.new (leaves : List (List Nat)) : Option BalancedMerkleTree :=
  if leaves.length = 0 ∨ ¬ Nat.land leaves.length (leaves.length - 1) = 0 ∨
      2 ^ 63 - 1 < leaves.length then none
  else
    let row0 := leaves.map hash_leaf
    some ⟨row0 ++ rowsFrom (trailing_zeros leaves.length) row0⟩

/-- Take exactly `n` elements of an iterator (`.next().unwrap()` n times):
a shorter list is a panic. -/
def takeExact (n : Nat) (l : List Hash) : Option (List Hash × List Hash) :=
  if n ≤ l.length then some (l.take n, l.drop n) else none

/-- The row-interleaving loop of `BalancedMerkleTree::merge`
(balanced_merkle_tree.rs): for each height, take the next row from the first
half and then from the second. -/
def mergeLoop : Nat → Nat → List Hash → List Hash → Option (List Hash)
  | 0, _, _, _ => some []
  | rounds + 1, t, xs, ys => do
    let (a, xs1) ← takeExact t xs
    let (b, ys1) ← takeExact t ys
    let rest ← mergeLoop rounds (t / 2) xs1 ys1
    some (a ++ b ++ rest)

/-- Model of `BalancedMerkleTree::merge` (balanced_merkle_tree.rs): `none` is
the explicit length-mismatch panic or an exhausted hash iterator; the new
root hashes the two last entries of the interleaved body. -/
def BalancedMerkleTree.merge (fst snd : BalancedMerkleTree) :
    Option BalancedMerkleTree := do
  if fst.leaves ≠ snd.leaves then none
  else do
    let body ← mergeLoop (fst.height + 1) fst.leaves fst.nodes snd.nodes
    match body.reverse with
    | b :: a :: _ => some ⟨body ++ [hash_intermediate a b]⟩
    | _ => none

/-- Model of `Utreexo` (utreexo.rs): the ordered list of balanced merkle
trees. -/
structure Utreexo where
  trees : List BalancedMerkleTree
deriving DecidableEq

/-- Model of `Utreexo::trees`. -/
def Utreexo.treesCount (u : Utreexo) : Nat := u.trees.length

/-- Model of `Utreexo::leaves`: sum of the per-tree leaf counts. -/
def Utreexo.leaves (u : Utreexo) : Nat :=
  (u.trees.map BalancedMerkleTree.leaves).sum

/-- Fuel-based model of the `while` loop of `Utreexo::compress` (utreexo.rs):
while the last two trees have equally many leaves, pop both and push their
merge; each iteration shortens the list, so the list length is enough fuel. -/
def compressUFuel : Nat → List BalancedMerkleTree → Option (List BalancedMerkleTree)
  | 0, ts => some ts
  | fuel + 1, ts =>
    match ts.getLast?, ts.dropLast.getLast? with
    | some lastT, some sndT =>
      if lastT.leaves = sndT.leaves then do
        let m ← BalancedMerkleTree.merge sndT lastT
        compressUFuel fuel (ts.dropLast.dropLast ++ [m])
      else some ts
    | _, _ => some ts

/-- Model of `Utreexo::insert` (utreexo.rs): push a singleton tree, then
compress.  Note there is no duplicate check. -/
def Utreexo.insert (u : Utreexo) (v : List Nat) : Option Utreexo := do
  let ts ← compressUFuel (u.trees.length + 1) (u.trees ++ [BalancedMerkleTree.new_single v])
  some ⟨ts⟩

/-- The bit loop of the free function `leaf_distribution` (utreexo.rs),
collecting `2^i` for each set low bit in ascending order. -/
def ldAux : Nat → Nat → Nat → List Nat
  | 0, _, _ => []
  | c + 1, num, i =>
    (if num % 2 = 1 then [2 ^ i] else []) ++ ldAux c (num / 2) (i + 1)

/-- Model of `leaf_distribution` (utreexo.rs): the loop runs for
`i in 0..size_of::<usize>()`, i.e. only over the 8 low bit positions. -/
def utreexo_leaf_distribution (num : Nat) : List Nat :=
  (ldAux 8 num 0).reverse

/-- The tree-building loop of `Utreexo::new` (utreexo.rs): split off each
prescribed leaf count (`split_at` panics if too few values remain) and build
a balanced tree from it (`unwrap` panics on `None`). -/
def utreexoNewLoop : List Nat → List (List Nat) → Option (List BalancedMerkleTree)
  | [], _ => some []
  | n :: rest, values =>
    if values.length < n then none
    else do
      let t ← BalancedMerkleTree.new (values.take n)
      let ts ← utreexoNewLoop rest (values.drop n)
      some (t :: ts)

/-- Model of `Utreexo::new` (utreexo.rs). -/
def Utreexo.new (values : List (List Nat)) : Option Utreexo :=
  if values.length = 0 then some ⟨[]⟩
  else do
    let ts ← utreexoNewLoop (utreexo_leaf_distribution values.length) values
    some ⟨ts⟩

/-- Specification-side root-to-leaf node positions of claim C9, derived from
the recursive slice layout (left subtree, right subtree, root last): the
root of a subtree of height `h` based at `base` sits at `base + 2^(h+1) - 2`,
the left child subtree is based at `base`, the right one at
`base + 2^h - 1`. -/
def pathPositions (base : Nat) : List Bool → List Nat
  | [] => [base]
  | d :: ds =>
    (base + 2 ^ (ds.length + 2) - 2) ::
      (if d then pathPositions (base + 2 ^ (ds.length + 1) - 1) ds
       else pathPositions base ds)

/-- Specification-side recomputed node value of claim C9 at depth `j` of the
path: the fold, from the new leaf hash upward, of the sibling steps strictly
below depth `j`. -/
def specNodeValue (p : Proof) (newLeaf : Hash) (j : Nat) : Hash :=
  specFoldSteps (((p.path.zip p.sibling_hashes).drop j).reverse) newLeaf

/-- Descending powers of two of the set bits of `n` (binary decomposition,
largest power first); the fuel `n + 1` always suffices since the argument
halves. -/
def decompAux : Nat → Nat → List Nat
  | 0, _ => []
  | fuel + 1, n =>
    if n = 0 then []
    else (decompAux fuel (n / 2)).map (fun x => 2 * x) ++ (if n % 2 = 1 then [1] else [])

/-- Binary decomposition of `n`: the powers of two of its set bits in
descending order. -/
def decomp (n : Nat) : List Nat := decompAux (n + 1) n

/-! ### Helper lemmas about `Proof::verify` -/

theorem verifyFold_eq_spec (ds : List Bool) (ss : List Hash) (h : Hash)
    (hlen : ds.length ≤ ss.length) :
    verifyFold ds ss h = some (specFoldSteps (ds.zip ss) h) := by
  induction ds generalizing ss h with
  | nil => simp [verifyFold, specFoldSteps]
  | cons d ds ih =>
    cases ss with
    | nil => simp at hlen
    | cons s ss =>
      simp only [List.length_cons, Nat.add_le_add_iff_right] at hlen
      simp [verifyFold, specFoldSteps, List.zip_cons_cons, ih _ _ hlen, List.zip]

theorem verifyFold_none (ds : List Bool) (ss : List Hash) (h : Hash)
    (hlen : ss.length < ds.length) :
    verifyFold ds ss h = none := by
  induction ds generalizing ss h with
  | nil => simp at hlen
  | cons d ds ih =>
    cases ss with
    | nil => rfl
    | cons s ss =>
      simp only [List.length_cons, Nat.add_lt_add_iff_right] at hlen
      simp [verifyFold, ih _ _ hlen]

theorem verify_eq_spec (p : Proof) (root : Hash)
    (hlen : p.path.length ≤ p.sibling_hashes.length) :
    p.verify root = some (decide (specRoot p = root)) := by
  unfold Proof.verify specRoot
  by_cases hs : p.sibling_hashes = []
  · have hp : p.path = [] := by
      have := hlen
      rw [hs] at this
      simpa using List.length_eq_zero.mp (Nat.le_zero.mp this)
    simp [hs, hp, specFoldSteps]
    constructor <;> intro h2 <;> simp [h2]
  · have : p.sibling_hashes.isEmpty = false := by
      cases hsib : p.sibling_hashes with
      | nil => exact absurd hsib hs
      | cons a l => rfl
    rw [this]
    simp only [Bool.false_eq_true, if_false]
    rw [verifyFold_eq_spec _ _ _ (by simpa using hlen)]
    rfl

theorem verify_short_none (p : Proof) (root : Hash)
    (hne : p.sibling_hashes ≠ [])
    (hlen : p.sibling_hashes.length < p.path.length) :
    p.verify root = none := by
  unfold Proof.verify
  have : p.sibling_hashes.isEmpty = false := by
    cases hsib : p.sibling_hashes with
    | nil => exact absurd hsib hne
    | cons a l => rfl
  rw [this]
  simp only [Bool.false_eq_true, if_false]
  rw [verifyFold_none _ _ _ (by simpa using hlen)]
  rfl

/-! ### Claims C1, C2, C8: `Proof::verify` -/

/-- C1: for every proof whose sibling-hash list has exactly path-height
entries, `Proof::verify(root_hash)` returns `true` iff the hash obtained by
starting from `hash_leaf(leaf_value)` and folding along the path from leaf to
root — hashing the accumulator on the left of the sibling on `Left` and on
the right on `Right`, consuming the sibling hashes bottom to top — equals
`root_hash`; and for every proof with an empty path and empty sibling list,
`verify` returns `true` iff `root_hash = hash_leaf(leaf_value)`. -/
theorem C1_verify_fold (p : Proof) (root : Hash) :
    (p.sibling_hashes.length = p.path.length →
      (p.verify root = some true ↔ specRoot p = root)) ∧
    (p.path = [] → p.sibling_hashes = [] →
      (p.verify root = some true ↔ root = hash_leaf p.leaf_value)) := by
  constructor
  · intro hlen
    rw [verify_eq_spec p root (le_of_eq hlen.symm)]
    simp
  · intro hp hs
    rw [verify_eq_spec p root (by simp [hp, hs])]
    unfold specRoot
    rw [hp, hs]
    simp [specFoldSteps]
    constructor <;> intro h2 <;> simp [h2]

/-- Witness for C1 at a concrete one-level proof. -/
theorem C1_witness :
    Proof.verify ⟨[false], [1], [Hash.raw [9]]⟩
        (hash_intermediate (hash_leaf [1]) (Hash.raw [9])) = some true ↔
      specRoot ⟨[false], [1], [Hash.raw [9]]⟩ =
        hash_intermediate (hash_leaf [1]) (Hash.raw [9]) :=
  (C1_verify_fold ⟨[false], [1], [Hash.raw [9]]⟩
    (hash_intermediate (hash_leaf [1]) (Hash.raw [9]))).1 (by decide)

/-- C2 counterexample: the claim says every proof whose sibling count differs
from its path height makes `verify` return `false`; but a proof with a
non-empty path and an empty sibling list verifies successfully whenever the
root equals the bare leaf hash. -/
theorem C2_counterexample :
    Proof.verify ⟨[false], [0], []⟩ (hash_leaf [0]) = some true := by decide

/-- C2 (amended): `Proof::verify` performs no sibling-count/path-height
check.  For a proof with mismatched lengths: an empty sibling list makes
`verify` return `root_hash = hash_leaf(leaf_value)` regardless of the path; a
non-empty sibling list shorter than the path makes `verify` panic; a sibling
list longer than the path makes `verify` fold the bottom-most path-height
siblings and return the result of the root comparison (so it can return
`true`). -/
theorem C2_amended (p : Proof) (root : Hash)
    (_hne : p.sibling_hashes.length ≠ p.path.length) :
    (p.sibling_hashes = [] →
      p.verify root = some (decide (root = hash_leaf p.leaf_value))) ∧
    (p.sibling_hashes ≠ [] → p.sibling_hashes.length < p.path.length →
      p.verify root = none) ∧
    (p.path.length < p.sibling_hashes.length →
      p.verify root = some (decide (specRoot p = root))) := by
  refine ⟨?_, ?_, ?_⟩
  · intro hs
    unfold Proof.verify
    rw [hs]
    rfl
  · intro h1 h2
    exact verify_short_none p root h1 h2
  · intro h1
    exact verify_eq_spec p root (le_of_lt h1)

/-- Witness for C2 at a concrete proof with an empty sibling list and a
non-empty path. -/
theorem C2_witness :
    Proof.verify ⟨[false], [0], []⟩ (Hash.raw [3]) =
      some (decide (Hash.raw [3] = hash_leaf [0])) :=
  (C2_amended ⟨[false], [0], []⟩ (Hash.raw [3]) (by decide)).1 rfl

/-- C8: there is a proof with a non-empty path and a non-empty sibling list
strictly shorter than the path on which `Proof::verify` panics (the `unwrap`
of an exhausted sibling iterator, modelled as `none`); and `verify` returns a
boolean exactly on the proofs whose sibling list is empty or has at least
path-height entries. -/
theorem C8_verify_partiality :
    (∃ (p : Proof) (root : Hash), p.path ≠ [] ∧ p.sibling_hashes ≠ [] ∧
      p.sibling_hashes.length < p.path.length ∧ p.verify root = none) ∧
    (∀ (p : Proof) (root : Hash), (p.verify root).isSome ↔
      (p.sibling_hashes = [] ∨ p.path.length ≤ p.sibling_hashes.length)) := by
  constructor
  · exact ⟨⟨[false, false], [0], [Hash.raw [0]]⟩, Hash.raw [1], by decide, by decide,
      by decide, by decide⟩
  · intro p root
    by_cases hs : p.sibling_hashes = []
    · unfold Proof.verify
      rw [hs]
      simp
    · by_cases hlen : p.path.length ≤ p.sibling_hashes.length
      · rw [verify_eq_spec p root hlen]
        simp [hlen]
      · rw [verify_short_none p root hs (Nat.lt_of_not_le hlen)]
        simp [hs, hlen]

/-- Witness for C8: the totality characterisation applied at a concrete
proof. -/
theorem C8_witness :
    (Proof.verify ⟨[true], [2], [Hash.raw [4]]⟩ (Hash.raw [5])).isSome :=
  (C8_verify_partiality.2 ⟨[true], [2], [Hash.raw [4]]⟩ (Hash.raw [5])).mpr
    (Or.inr (by decide))

/-! ### Claim C3: the insert–prove–verify round trip breaks at 16 leaves -/

/-- C3: the round-trip law fails on the code.  `TreeRef::leaf_hashes` walks
the wrong node indices for trees of height ≥ 4 (`(1..height).chain((1..height-1).rev())`
is not the leaf-gap sequence beyond height 3), so after the sixteenth
distinct insert the path map keeps a stale height-3 path for the seventh
value: `prove` then panics on the `unwrap` of a failed binary search
(modelled as `none`); for the tenth value `prove` returns `None` although the
value is in the forest.  This theorem evaluates the model at that failing
input. -/
theorem C3_roundtrip_breaks :
    ((((List.range 16).map (fun i => [i])).foldlM Forest.insert Forest.new).isSome = true) ∧
    ((((List.range 16).map (fun i => [i])).foldlM Forest.insert Forest.new).bind
        (fun f => f.prove [6]) = none) ∧
    ((((List.range 16).map (fun i => [i])).foldlM Forest.insert Forest.new).bind
        (fun f => f.prove [9]) = some none) := by
  refine ⟨by decide, by decide, by decide⟩

/-! ### Claim C6: insert idempotence on duplicates -/

/-- C6 counterexample: `Utreexo::insert` (utreexo.rs) has no duplicate
check — inserting a value whose leaf hash is already in the state merges a
second copy in, and the leaf count grows from 1 to 2. -/
theorem C6_counterexample :
    Utreexo.insert ⟨[⟨[hash_leaf [7]]⟩]⟩ [7] =
      some ⟨[⟨[hash_leaf [7], hash_leaf [7],
        hash_intermediate (hash_leaf [7]) (hash_leaf [7])]⟩]⟩ ∧
    Utreexo.leaves ⟨[⟨[hash_leaf [7]]⟩]⟩ = 1 ∧
    Utreexo.leaves ⟨[⟨[hash_leaf [7], hash_leaf [7],
      hash_intermediate (hash_leaf [7]) (hash_leaf [7])]⟩]⟩ = 2 := by
  refine ⟨by decide, by decide, by decide⟩

theorem mergeLoop_succ_some {r t : Nat} {xs ys body : List Hash}
    (h : mergeLoop (r + 1) t xs ys = some body) :
    t ≤ xs.length ∧ t ≤ ys.length ∧
      ∃ rest, mergeLoop r (t / 2) (xs.drop t) (ys.drop t) = some rest ∧
        body = xs.take t ++ (ys.take t ++ rest) := by
  simp only [mergeLoop, takeExact, Option.bind_eq_bind] at h
  split at h
  · split at h
    · simp only [Option.some_bind] at h
      cases hr : mergeLoop r (t / 2) (xs.drop t) (ys.drop t) with
      | none => rw [hr] at h; simp at h
      | some rest =>
        rw [hr] at h
        simp only [Option.some_bind, Option.some.injEq] at h
        exact ⟨by assumption, by assumption, rest, rfl, by rw [← h]; simp⟩
    · simp at h
  · simp at h

theorem mergeLoop_pow_length : ∀ (k : Nat) (xs ys body : List Hash),
    mergeLoop (k + 1) (2 ^ k) xs ys = some body →
    body.length = 2 * (2 ^ (k + 1) - 1) := by
  intro k
  induction k with
  | zero =>
    intro xs ys body h
    obtain ⟨hx, hy, rest, hr, hb⟩ := mergeLoop_succ_some h
    have : rest = [] := by
      simpa [mergeLoop] using hr
    subst this
    rw [hb]
    simp [List.length_take]
    omega
  | succ k ih =>
    intro xs ys body h
    obtain ⟨hx, hy, rest, hr, hb⟩ := mergeLoop_succ_some h
    have hdiv : 2 ^ (k + 1) / 2 = 2 ^ k := by
      rw [pow_succ]
      exact Nat.mul_div_cancel _ (by norm_num)
    rw [hdiv] at hr
    have hrest := ih _ _ _ hr
    rw [hb]
    simp [List.length_take, hrest]
    have h1 : (1 : Nat) ≤ 2 ^ (k + 1) := Nat.one_le_two_pow
    have h2 : (2 : Nat) ^ (k + 1 + 1) = 2 * 2 ^ (k + 1) := by ring
    have h3 : min (2 ^ (k + 1)) xs.length = 2 ^ (k + 1) := Nat.min_eq_left hx
    have h4 : min (2 ^ (k + 1)) ys.length = 2 ^ (k + 1) := Nat.min_eq_left hy
    omega

theorem tzAux_correct : ∀ (fuel k m : Nat), k < fuel →
    tzAux fuel (2 ^ k * (2 * m + 1)) = k := by
  intro fuel
  induction fuel with
  | zero => intro k m h; omega
  | succ fuel ih =>
    intro k m h
    cases k with
    | zero =>
      have h1 : (2 * m + 1) % 2 = 1 := by omega
      simp [tzAux, h1]
    | succ k =>
      have hpos : 0 < 2 ^ k * (2 * m + 1) :=
        Nat.mul_pos (Nat.pos_pow_of_pos k (by norm_num)) (by omega)
      have hform : 2 ^ (k + 1) * (2 * m + 1) = 2 * (2 ^ k * (2 * m + 1)) := by ring
      have hne : 2 ^ (k + 1) * (2 * m + 1) ≠ 0 := by omega
      have hmod : 2 ^ (k + 1) * (2 * m + 1) % 2 = 0 := by
        rw [hform]; exact Nat.mul_mod_right 2 _
      have hdiv : 2 ^ (k + 1) * (2 * m + 1) / 2 = 2 ^ k * (2 * m + 1) := by
        rw [hform]; exact Nat.mul_div_cancel_left _ (by norm_num)
      simp only [tzAux, hne, if_false, hmod]
      rw [hdiv, ih k m (by omega)]
      norm_num

theorem trailing_zeros_pow2 (k : Nat) : trailing_zeros (2 ^ k) = k := by
  have h := tzAux_correct (2 ^ k + 1) k 0 (by have := Nat.lt_two_pow k; omega)
  simpa [trailing_zeros] using h

theorem merge_pow_leaves {fst snd m : BalancedMerkleTree} {k : Nat}
    (hL : fst.leaves = 2 ^ k)
    (h : BalancedMerkleTree.merge fst snd = some m) :
    m.leaves = 2 ^ (k + 1) := by
  unfold BalancedMerkleTree.merge at h
  split at h
  · simp at h
  · have hh : fst.height = k := by
      unfold BalancedMerkleTree.height
      rw [hL, trailing_zeros_pow2]
    rw [hh, hL] at h
    simp only [Option.bind_eq_bind] at h
    cases hb : mergeLoop (k + 1) (2 ^ k) fst.nodes snd.nodes with
    | none => rw [hb] at h; simp at h
    | some body =>
      rw [hb] at h
      simp only [Option.some_bind] at h
      have hlen := mergeLoop_pow_length k _ _ _ hb
      split at h
      · cases h
        unfold BalancedMerkleTree.leaves
        simp [hlen]
        have h1 : (1 : Nat) ≤ 2 ^ (k + 1) := Nat.one_le_two_pow
        omega
      · simp at h

theorem compressU_sum : ∀ (fuel : Nat) (ts : List BalancedMerkleTree)
    (c : BalancedMerkleTree) (k : Nat) (ts2 : List BalancedMerkleTree),
    c.leaves = 2 ^ k →
    compressUFuel fuel (ts ++ [c]) = some ts2 →
    (ts2.map BalancedMerkleTree.leaves).sum =
      (ts.map BalancedMerkleTree.leaves).sum + c.leaves := by
  intro fuel
  induction fuel with
  | zero =>
    intro ts c k ts2 hc h
    simp only [compressUFuel, Option.some.injEq] at h
    rw [← h]
    simp
  | succ fuel ih =>
    intro ts c k ts2 hc h
    simp only [compressUFuel, List.getLast?_concat, List.dropLast_concat] at h
    cases hts : ts.getLast? with
    | none =>
      rw [hts] at h
      simp only [Option.some.injEq] at h
      rw [← h]
      simp
    | some snd =>
      rw [hts] at h
      split at h
      · rename_i lastT sndT hceq hseq
        injection hceq with hceq2
        injection hseq with hseq2
        subst hceq2
        subst hseq2
        split at h
        · rename_i hleq
          simp only [Option.bind_eq_bind] at h
          cases hm : BalancedMerkleTree.merge snd c with
          | none => rw [hm] at h; simp at h
          | some m =>
            rw [hm] at h
            simp only [Option.some_bind] at h
            have hne : ts ≠ [] := by
              intro he
              rw [he] at hts
              simp at hts
            have hsplit : ts.dropLast ++ [snd] = ts := by
              have h2 := List.dropLast_append_getLast hne
              have h3 : ts.getLast hne = snd := by
                have h4 := List.getLast?_eq_getLast ts hne
                rw [hts] at h4
                exact (Option.some.injEq _ _).mp h4.symm
              rw [h3] at h2
              exact h2
            have hsl : snd.leaves = 2 ^ k := by rw [← hleq, hc]
            have hml : m.leaves = 2 ^ (k + 1) := merge_pow_leaves hsl hm
            have hrec := ih ts.dropLast m (k + 1) ts2 hml h
            rw [hrec, hml]
            calc (ts.dropLast.map BalancedMerkleTree.leaves).sum + 2 ^ (k + 1)
                = (ts.dropLast.map BalancedMerkleTree.leaves).sum + snd.leaves + c.leaves := by
                  rw [hsl, hc]; ring
              _ = ((ts.dropLast ++ [snd]).map BalancedMerkleTree.leaves).sum + c.leaves := by
                  simp
              _ = (ts.map BalancedMerkleTree.leaves).sum + c.leaves := by rw [hsplit]
        · simp only [Option.some.injEq] at h
          rw [← h]
          simp
      · rename_i hno
        exact (hno c snd rfl rfl).elim

/-- C6 counterexample companion fact is `C6_counterexample` above; this is the
amended statement.

C6 (amended): only `Forest`'s insert is idempotent on duplicate leaf hashes
(a hash already in the path map makes `insert` a no-op).  `Utreexo::insert`
(utreexo.rs) and `MemoryAccumulator::insert` (accumulator.rs) have no
duplicate check: a successful `Utreexo::insert` always increases the leaf
count by one, and `MemoryAccumulator::insert` always changes the slot
vector. -/
theorem C6_insert_idempotence (f : Forest) (v : List Nat)
    (hdup : mapContains f.path_map (hash_leaf v) = true) :
    Forest.insert f v = some f ∧
    (∀ (u : Utreexo) (w : List Nat) (u2 : Utreexo),
      Utreexo.insert u w = some u2 → u2.leaves = u.leaves + 1) ∧
    (∀ (acc : MemoryAccumulator) (w : List Nat),
      MemoryAccumulator.insert acc w ≠ acc) := by
  refine ⟨?_, ?_, ?_⟩
  · unfold Forest.insert Forest.insert_hash
    rw [hdup]
    rfl
  · intro u w u2 h
    unfold Utreexo.insert at h
    simp only [Option.bind_eq_bind] at h
    cases hc : compressUFuel (u.trees.length + 1)
        (u.trees ++ [BalancedMerkleTree.new_single w]) with
    | none => rw [hc] at h; simp at h
    | some ts =>
      rw [hc] at h
      simp only [Option.some_bind, Option.some.injEq] at h
      have hs : (BalancedMerkleTree.new_single w).leaves = 2 ^ 0 := by
        unfold BalancedMerkleTree.leaves BalancedMerkleTree.new_single
        simp
      have hsum := compressU_sum _ _ _ _ _ hs hc
      rw [← h]
      unfold Utreexo.leaves
      simp only [hsum, hs]
      rfl
  · intro acc w heq
    obtain ⟨slots⟩ := acc
    unfold MemoryAccumulator.insert at heq
    simp only [MemoryAccumulator.mk.injEq] at heq
    cases slots with
    | nil => simp [accInsertLoop] at heq
    | cons s rest =>
      cases s with
      | none => simp [accInsertLoop] at heq
      | some old => simp [accInsertLoop] at heq

/-- Witness for C6 at a concrete forest already containing the hash of the
inserted value. -/
theorem C6_witness :
    Forest.insert ⟨1, [hash_leaf [0]], [1], [(hash_leaf [0], [])]⟩ [0] =
      some ⟨1, [hash_leaf [0]], [1], [(hash_leaf [0], [])]⟩ :=
  (C6_insert_idempotence ⟨1, [hash_leaf [0]], [1], [(hash_leaf [0], [])]⟩ [0]
    (by decide)).1

/-! ### Claim C10: `leaf_distribution` (utreexo.rs) inspects 8 bits only -/

theorem ldAux_eq : ∀ (c num i : Nat), ldAux c num i =
    ((List.range c).filter (fun k => num.testBit k)).map (fun k => 2 ^ (k + i)) := by
  intro c
  induction c with
  | zero => intro num i; rfl
  | succ c ih =>
    intro num i
    have hfilter : (List.map Nat.succ (List.range c)).filter (fun k => num.testBit k) =
        ((List.range c).filter (fun k => (num / 2).testBit k)).map Nat.succ := by
      rw [List.filter_map]
      congr 1
      apply List.filter_congr
      intro k _
      simp [Function.comp, Nat.testBit_succ]
    have hmap : (((List.range c).filter (fun k => (num / 2).testBit k)).map Nat.succ).map
        (fun k => 2 ^ (k + i)) =
        ((List.range c).filter (fun k => (num / 2).testBit k)).map
          (fun k => 2 ^ (k + (i + 1))) := by
      rw [List.map_map]
      apply List.map_congr_left
      intro k _
      simp only [Function.comp_apply, Nat.succ_eq_add_one]
      congr 1
      omega
    have hbit0 : num.testBit 0 = decide (num % 2 = 1) := by
      simp [Nat.testBit_zero]
    rw [List.range_succ_eq_map, List.filter_cons, hbit0, hfilter]
    by_cases hm : num % 2 = 1
    · simp only [ldAux, ih (num / 2) (i + 1), hm, decide_True, if_true,
        List.map_cons, hmap]
      simp
    · simp only [ldAux, ih (num / 2) (i + 1), hm, decide_False,
        Bool.false_eq_true, if_false, hmap]
      simp

theorem ldAux_sum : ∀ (c num i : Nat), (ldAux c num i).sum = (num % 2 ^ c) * 2 ^ i := by
  intro c
  induction c with
  | zero => intro num i; simp [ldAux, Nat.mod_one]
  | succ c ih =>
    intro num i
    have hsplit : num % 2 ^ (c + 1) = num % 2 + 2 * (num / 2 % 2 ^ c) := by
      have h2 : (2 : Nat) ^ (c + 1) = 2 * 2 ^ c := by ring
      rw [h2, Nat.mod_mul]
    simp only [ldAux, List.sum_append, ih (num / 2) (i + 1), hsplit]
    rcases Nat.mod_two_eq_zero_or_one num with hm | hm <;>
      simp [hm] <;> ring

theorem ldAux_mem_pow : ∀ (c num i x : Nat), x ∈ ldAux c num i →
    ∃ k, k < i + c ∧ x = 2 ^ k := by
  intro c
  induction c with
  | zero => intro num i x h; simp [ldAux] at h
  | succ c ih =>
    intro num i x h
    simp only [ldAux, List.mem_append] at h
    rcases h with h | h
    · refine ⟨i, by omega, ?_⟩
      rcases Nat.mod_two_eq_zero_or_one num with hm | hm <;> simp [hm] at h
      exact h
    · obtain ⟨k, hk, hx⟩ := ih (num / 2) (i + 1) x h
      exact ⟨k, by omega, hx⟩

theorem pairUp_length : ∀ (l : List Hash), (pairUp l).length = l.length / 2
  | [] => by simp [pairUp]
  | [_] => by simp [pairUp]
  | _ :: _ :: rest => by
    simp only [pairUp, List.length_cons, pairUp_length rest]
    omega

theorem rowsFrom_length : ∀ (k : Nat) (row : List Hash), row.length = 2 ^ k →
    (rowsFrom k row).length = 2 ^ k - 1 := by
  intro k
  induction k with
  | zero => intro row _; simp [rowsFrom]
  | succ k ih =>
    intro row h
    have hp2 : (2 : Nat) ^ (k + 1) = 2 ^ k * 2 := pow_succ 2 k
    have hnext : (pairUp row).length = 2 ^ k := by
      rw [pairUp_length, h, hp2]
      omega
    simp only [rowsFrom, List.length_append, hnext, ih _ hnext]
    have h1 : (1 : Nat) ≤ 2 ^ k := Nat.one_le_two_pow
    omega

theorem pow_land_pred_eq_zero (k : Nat) : Nat.land (2 ^ k) (2 ^ k - 1) = 0 := by
  apply Nat.eq_of_testBit_eq
  intro i
  simp only [Nat.zero_testBit]
  have : Nat.land (2 ^ k) (2 ^ k - 1) = 2 ^ k &&& (2 ^ k - 1) := rfl
  rw [this, Nat.testBit_and, Nat.testBit_two_pow, Nat.testBit_two_pow_sub_one]
  by_cases h : k = i <;> simp [h]

theorem BMT_new_pow (vals : List (List Nat)) (k : Nat)
    (hlen : vals.length = 2 ^ k) (hk : k ≤ 62) :
    ∃ t, BalancedMerkleTree.new vals = some t ∧ t.leaves = 2 ^ k := by
  have hpos : 0 < 2 ^ k := Nat.pos_pow_of_pos k (by norm_num)
  have hne : ¬ vals.length = 0 := by omega
  have hland : Nat.land vals.length (vals.length - 1) = 0 := by
    rw [hlen]
    exact pow_land_pred_eq_zero k
  have hmax : ¬ (2 ^ 63 - 1 < vals.length) := by
    rw [hlen]
    have h62 : (2 : Nat) ^ k ≤ 2 ^ 62 := Nat.pow_le_pow_right (by norm_num) hk
    have h63 : (2 : Nat) ^ 62 ≤ 2 ^ 63 - 1 := by norm_num
    omega
  have hcond : ¬ (vals.length = 0 ∨ ¬ Nat.land vals.length (vals.length - 1) = 0 ∨
      2 ^ 63 - 1 < vals.length) := by
    push_neg
    exact ⟨hne, hland, by omega⟩
  unfold BalancedMerkleTree.new
  rw [if_neg hcond]
  refine ⟨_, rfl, ?_⟩
  have hrow : (vals.map hash_leaf).length = 2 ^ k := by
    rw [List.length_map, hlen]
  unfold BalancedMerkleTree.leaves
  simp only [List.length_append, hrow]
  rw [hlen, trailing_zeros_pow2, rowsFrom_length k _ hrow]
  omega

theorem utreexoNewLoop_sum : ∀ (dist : List Nat) (values : List (List Nat)),
    (∀ x ∈ dist, ∃ k, k < 8 ∧ x = 2 ^ k) → dist.sum = values.length →
    ∃ ts, utreexoNewLoop dist values = some ts ∧
      (ts.map BalancedMerkleTree.leaves).sum = values.length := by
  intro dist
  induction dist with
  | nil =>
    intro values _ hsum
    exact ⟨[], rfl, by simpa using hsum⟩
  | cons n rest ih =>
    intro values hpow hsum
    obtain ⟨k, hk8, hnk⟩ := hpow n (List.mem_cons_self _ _)
    have hle : n ≤ values.length := by
      simp only [List.sum_cons] at hsum
      omega
    have hguard : ¬ values.length < n := by omega
    have htake : (values.take n).length = 2 ^ k := by
      rw [List.length_take, Nat.min_eq_left hle, hnk]
    obtain ⟨t, hnew, hlv⟩ := BMT_new_pow (values.take n) k htake (by omega)
    obtain ⟨ts, hloop, hts⟩ := ih (values.drop n)
      (fun x hx => hpow x (List.mem_cons_of_mem _ hx))
      (by
        simp only [List.sum_cons] at hsum
        simp only [List.length_drop]
        omega)
    refine ⟨t :: ts, ?_, ?_⟩
    · unfold utreexoNewLoop
      rw [if_neg hguard]
      simp [hnew, hloop]
    · simp only [List.map_cons, List.sum_cons, hlv, hts, List.length_drop]
      rw [← hnk]
      omega

/-- C10: the free function `leaf_distribution` in utreexo.rs loops over
`i in 0..size_of::<usize>()`, i.e. only bit positions 0 through 7: for every
count it returns the powers of two of the set bits among the low 8 bits in
descending order (hence, below 2^8, the full binary decomposition, and
`Utreexo::new` covers all values), while at count 256 it returns the empty
distribution and `Utreexo::new` silently drops all 256 values, leaving
`leaves() = 0 < 256`. -/
theorem C10_leaf_distribution_bits :
    (∀ n : Nat, utreexo_leaf_distribution n =
      (((List.range 8).filter (fun k => n.testBit k)).map (fun k => 2 ^ k)).reverse) ∧
    (∀ values : List (List Nat), values.length < 256 →
      (Utreexo.new values).map Utreexo.leaves = some values.length) ∧
    (utreexo_leaf_distribution 256 = [] ∧
      Utreexo.new (List.replicate 256 [0]) = some ⟨[]⟩ ∧
      Utreexo.leaves ⟨[]⟩ = 0) := by
  refine ⟨?_, ?_, by decide, by decide, by decide⟩
  · intro n
    unfold utreexo_leaf_distribution
    rw [ldAux_eq]
    simp
  · intro values hlt
    by_cases h0 : values.length = 0
    · have hv : values = [] := List.length_eq_zero.mp h0
      subst hv
      simp [Utreexo.new, Utreexo.leaves]
    · have hmem : ∀ x ∈ utreexo_leaf_distribution values.length,
          ∃ k, k < 8 ∧ x = 2 ^ k := by
        intro x hx
        unfold utreexo_leaf_distribution at hx
        rw [List.mem_reverse] at hx
        obtain ⟨k, hk, hxk⟩ := ldAux_mem_pow 8 values.length 0 x hx
        exact ⟨k, by omega, hxk⟩
      have hsum : (utreexo_leaf_distribution values.length).sum = values.length := by
        unfold utreexo_leaf_distribution
        rw [List.sum_reverse, ldAux_sum]
        have h256 : (2 : Nat) ^ 8 = 256 := by norm_num
        rw [h256, Nat.mod_eq_of_lt hlt]
        simp
      obtain ⟨ts, hloop, hts⟩ := utreexoNewLoop_sum _ values hmem hsum
      unfold Utreexo.new
      rw [if_neg h0]
      simp only [Option.bind_eq_bind, hloop, Option.some_bind, Option.map_some]
      simp [Utreexo.leaves, hts]

/-- Witness for C10: building a utreexo from three values keeps all three
leaves. -/
theorem C10_witness :
    (Utreexo.new [[1], [2], [3]]).map Utreexo.leaves = some 3 :=
  C10_leaf_distribution_bits.2.1 [[1], [2], [3]] (by decide)

/-! ### Claim C5: `MemoryAccumulator::delete` reconstructs the lower slots -/

theorem getD_append_len {α : Type} (ctx l : List α) (d : α) :
    (ctx ++ l).getD ctx.length d = l.getD 0 d := by
  induction ctx with
  | nil => rfl
  | cons a ctx ih => simpa using ih

theorem set_append_len {α : Type} (ctx l : List α) (x : α) :
    (ctx ++ l).set ctx.length x = ctx ++ l.set 0 x := by
  induction ctx with
  | nil => rfl
  | cons a ctx ih => simp [List.set, ih]

theorem specFold_eq_loop : ∀ (sibs : List Hash) (ctx rest : List (Option Hash))
    (carry : Option Hash), sibs.length ≤ rest.length →
    ((List.range' ctx.length sibs.length).zip sibs).foldl specStep (ctx ++ rest, carry) =
      (ctx ++ ((accDeleteLoop (rest.take sibs.length) sibs carry).1 ++
        rest.drop sibs.length),
       (accDeleteLoop (rest.take sibs.length) sibs carry).2) := by
  intro sibs
  induction sibs with
  | nil =>
    intro ctx rest carry _
    simp [accDeleteLoop]
  | cons s ss ih =>
    intro ctx rest carry hlen
    cases rest with
    | nil => simp at hlen
    | cons r rest2 =>
      have hlen2 : ss.length ≤ rest2.length := by
        simpa using hlen
      simp only [List.length_cons]
      rw [List.range'_succ, List.zip_cons_cons, List.foldl_cons]
      have hctx : ∀ (y : Option Hash),
          ctx ++ y :: rest2 = (ctx ++ [y]) ++ rest2 := by
        intro y
        simp
      have hctxlen : ∀ (y : Option Hash), (ctx ++ [y]).length = ctx.length + 1 := by
        intro y
        simp
      cases carry with
      | some a =>
        have hstep : specStep (ctx ++ r :: rest2, some a) (ctx.length, s) =
            (ctx ++ r :: rest2, some (hash_intermediate s a)) := by
          simp [specStep]
        rw [hstep, hctx r, ← hctxlen r, ih (ctx ++ [r]) rest2 _ hlen2]
        simp [accDeleteLoop]
      | none =>
        cases r with
        | none =>
          have hstep : specStep (ctx ++ none :: rest2, none) (ctx.length, s) =
              (ctx ++ some s :: rest2, none) := by
            simp only [specStep, getD_append_len, List.getD_cons_zero, set_append_len]
            rfl
          rw [hstep, hctx (some s), ← hctxlen (some s), ih (ctx ++ [some s]) rest2 _ hlen2]
          simp [accDeleteLoop]
        | some old =>
          have hstep : specStep (ctx ++ some old :: rest2, none) (ctx.length, s) =
              (ctx ++ none :: rest2, some (hash_intermediate s old)) := by
            simp only [specStep, getD_append_len, List.getD_cons_zero, set_append_len]
            rfl
          rw [hstep, hctx none, ← hctxlen none, ih (ctx ++ [none]) rest2 _ hlen2]
          simp [accDeleteLoop]

theorem accumulator_verify_facts {acc : MemoryAccumulator} {p : AProof}
    (hv : acc.verify p = true) :
    p.sibling_hashes.length = p.path.length ∧
      p.path.length + 1 ≤ acc.slots.length := by
  unfold MemoryAccumulator.verify at hv
  split at hv
  · simp at hv
  · rename_i hge
    refine ⟨?_, by omega⟩
    split at hv
    · rename_i root heq
      unfold AProof.verify at hv
      split at hv
      · simp at hv
      · rename_i hne
        omega
    · simp at hv

/-- C5: for every accumulator state and proof of height `h` that verifies
against slot `h`, `MemoryAccumulator::delete` walks heights `k = 0 … h-1`
with the proof's sibling at height `k` (bottom sibling at height 0, as the
sibling list of the accumulator's proof type is stored bottom to top),
carrying a merge accumulator — placing the sibling into an empty slot,
merging it with an occupied slot (clearing it), or merging it onto the
carry — and finally places the carry (possibly none) into slot `h`,
returning `true`. -/
theorem C5_accumulator_delete (acc : MemoryAccumulator) (p : AProof)
    (hv : acc.verify p = true) :
    acc.delete p = (⟨specDelete acc.slots p⟩, true) := by
  obtain ⟨hlen, hle⟩ := accumulator_verify_facts hv
  unfold MemoryAccumulator.delete specDelete
  rw [if_neg (fun hc => hc hv)]
  dsimp only
  rw [List.range_eq_range']
  have hfold := specFold_eq_loop p.sibling_hashes [] acc.slots none
    (by rw [hlen]; omega)
  simp only [List.nil_append, List.length_nil] at hfold
  rw [← hlen, hfold]

/-- Witness for C5: deleting from a two-slot accumulator with a height-1
proof. -/
theorem C5_witness :
    MemoryAccumulator.delete
        ⟨[some (Hash.raw [0]), some (hash_intermediate (hash_leaf [5]) (Hash.raw [1]))]⟩
        ⟨[false], [5], [Hash.raw [1]]⟩ =
      (⟨specDelete
        [some (Hash.raw [0]), some (hash_intermediate (hash_leaf [5]) (Hash.raw [1]))]
        ⟨[false], [5], [Hash.raw [1]]⟩⟩, true) :=
  C5_accumulator_delete
    ⟨[some (Hash.raw [0]), some (hash_intermediate (hash_leaf [5]) (Hash.raw [1]))]⟩
    ⟨[false], [5], [Hash.raw [1]]⟩ (by decide)

/-! ### Claim C7: delete is a no-op on failure, verified-and-mutating on success -/

theorem swapWrites_length : ∀ (steps : List (Bool × Hash)) (ci lv : Nat)
    (t t2 : List Hash), swapWrites steps ci lv t = some t2 → t2.length = t.length := by
  intro steps
  induction steps with
  | nil =>
    intro ci lv t t2 h
    simp only [swapWrites, Option.some.injEq] at h
    rw [← h]
  | cons step rest ih =>
    intro ci lv t t2 h
    obtain ⟨d, nh⟩ := step
    rw [swapWrites] at h
    by_cases hci : ci < (if d then 1 else lv)
    · rw [if_pos hci] at h
      exact absurd h (by simp)
    · rw [if_neg hci] at h
      by_cases hlt : ci - (if d then 1 else lv) < t.length
      · rw [if_pos hlt] at h
        have h4 := ih _ _ _ _ h
        rwa [List.length_set] at h4
      · rw [if_neg hlt] at h
        exact absurd h (by simp)

theorem swap_elim {t : List Hash} {p : Proof} {lh : Hash} {t2 : List Hash} {b : Bool}
    (h : TreeRefMut.swap t p lh = some (t2, b)) :
    ∃ root, root_hash t = some root ∧
      ((b = false ∧ t2 = t ∧ Proof.verify p root = some false) ∨
       (b = true ∧ t2.length = t.length ∧ Proof.verify p root = some true)) := by
  unfold TreeRefMut.swap at h
  simp only [Option.bind_eq_bind] at h
  cases hr : root_hash t with
  | none => rw [hr] at h; simp at h
  | some root =>
    rw [hr] at h
    simp only [Option.some_bind] at h
    cases hv : Proof.verify p root with
    | none => rw [hv] at h; simp at h
    | some ok =>
      rw [hv] at h
      simp only [Option.some_bind] at h
      refine ⟨root, rfl, ?_⟩
      cases ok with
      | false =>
        simp only [Bool.not_false, if_pos] at h
        cases h
        exact Or.inl ⟨rfl, rfl, hv⟩
      | true =>
        simp only [Bool.not_true, Bool.false_eq_true, if_false] at h
        split at h
        · simp at h
        · cases hw : swapWrites (p.path.zip _) (t.length - 1) (TreeRef.leaves t)
              (t.set (t.length - 1) _) with
          | none => rw [hw] at h; simp at h
          | some t3 =>
            rw [hw] at h
            simp only [Option.some_bind, Option.some.injEq, Prod.mk.injEq] at h
            obtain ⟨h3, hb⟩ := h
            subst hb
            refine Or.inr ⟨rfl, ?_, hv⟩
            rw [← h3]
            have := swapWrites_length _ _ _ _ _ hw
            simpa using this

theorem binSearchGo_ok {l : List Nat} {f : Nat → Ordering} :
    ∀ (fuel left right i : Nat), right ≤ l.length →
      binSearchGo l f fuel left right = Except.ok i →
      i < l.length ∧ f (l.getD i 0) = Ordering.eq := by
  intro fuel
  induction fuel with
  | zero => intro left right i _ h; simp [binSearchGo] at h
  | succ fuel ih =>
    intro left right i hr h
    simp only [binSearchGo] at h
    split at h
    · rename_i hlt
      split at h
      · exact ih _ _ _ hr h
      · exact ih _ _ _ (by omega) h
      · rename_i heq
        simp only [Except.ok.injEq] at h
        subst h
        exact ⟨by omega, heq⟩
    · simp at h

theorem binary_search_ok {l : List Nat} {f : Nat → Ordering} {i : Nat}
    (h : binary_search_by l f = Except.ok i) :
    i < l.length ∧ f (l.getD i 0) = Ordering.eq := by
  exact binSearchGo_ok _ 0 l.length i (le_refl _) h

theorem cmpRev_eq {a b : Nat} (h : cmpRev a b = Ordering.eq) : b = a := by
  unfold cmpRev at h
  rcases Nat.lt_trichotomy b a with hlt | heq | hgt
  · rw [Nat.compare_eq_lt.mpr hlt] at h
    simp [Ordering.swap] at h
  · exact heq
  · rw [Nat.compare_eq_gt.mpr hgt] at h
    simp [Ordering.swap] at h

theorem update_paths_fields {f : Forest} {idx : Nat} {f1 : Forest}
    (h : update_paths_for_index f idx = some f1) :
    f1.forest = f.forest ∧ f1.leaves = f.leaves ∧
      f1.leaf_distribution = f.leaf_distribution := by
  unfold update_paths_for_index at h
  simp only [Option.bind_eq_bind] at h
  cases h1 : getTreeRefAt f idx with
  | none => rw [h1] at h; simp at h
  | some tree =>
    rw [h1] at h
    simp only [Option.some_bind] at h
    cases h2 : leaf_hashes tree with
    | none => rw [h2] at h; simp at h
    | some lh =>
      rw [h2] at h
      simp only [Option.some_bind, Option.some.injEq] at h
      rw [← h]
      exact ⟨rfl, rfl, rfl⟩

theorem updateLoop_fields : ∀ (l : List Nat) (f0 f3 : Forest),
    l.foldlM (fun acc i =>
      if acc.leaf_distribution.length < i + 1 then none
      else update_paths_for_index acc (acc.leaf_distribution.length - 1 - i)) f0 =
        some f3 →
    f3.forest = f0.forest ∧ f3.leaves = f0.leaves ∧
      f3.leaf_distribution = f0.leaf_distribution := by
  intro l
  induction l with
  | nil =>
    intro f0 f3 h
    simp only [List.foldlM_nil] at h
    cases h
    exact ⟨rfl, rfl, rfl⟩
  | cons i rest ih =>
    intro f0 f3 h
    simp only [List.foldlM_cons] at h
    by_cases hguard : f0.leaf_distribution.length < i + 1
    · rw [if_pos hguard] at h
      exact Option.noConfusion h
    · rw [if_neg hguard] at h
      cases h1 : update_paths_for_index f0 (f0.leaf_distribution.length - 1 - i) with
      | none => rw [h1] at h; exact Option.noConfusion h
      | some f1 =>
        rw [h1] at h
        have hbind : (some f1 >>= rest.foldlM (fun acc i =>
            if acc.leaf_distribution.length < i + 1 then none
            else update_paths_for_index acc (acc.leaf_distribution.length - 1 - i))) =
            rest.foldlM (fun acc i =>
              if acc.leaf_distribution.length < i + 1 then none
              else update_paths_for_index acc (acc.leaf_distribution.length - 1 - i)) f1 :=
          rfl
        rw [hbind] at h
        obtain ⟨e1, e2, e3⟩ := update_paths_fields h1
        obtain ⟨g1, g2, g3⟩ := ih f1 f3 h
        exact ⟨g1.trans e1, g2.trans e2, g3.trans e3⟩

theorem slice_root_eq {l : List Hash} {nb ni : Nat} (hni : 1 ≤ ni)
    (hle : nb + ni ≤ l.length) :
    root_hash ((l.drop nb).take ni) = l.get? (nb + ni - 1) := by
  unfold root_hash
  have hlen : ((l.drop nb).take ni).length = ni := by
    rw [List.length_take, List.length_drop]
    omega
  rw [hlen]
  rw [List.get?_take (by omega), List.get?_drop]
  congr 1
  omega

theorem accDeleteLoop_length : ∀ (slots : List (Option Hash)) (sibs : List Hash)
    (c : Option Hash), (accDeleteLoop slots sibs c).1.length = slots.length := by
  intro slots
  induction slots with
  | nil =>
    intro sibs c
    cases sibs <;> rfl
  | cons s rest ih =>
    intro sibs c
    cases sibs with
    | nil => rfl
    | cons sib sibs2 =>
      cases c with
      | some a => simpa [accDeleteLoop] using ih sibs2 _
      | none =>
        cases s with
        | none => simpa [accDeleteLoop] using ih sibs2 _
        | some old => simpa [accDeleteLoop] using ih sibs2 _

theorem delete_elim {f : Forest} {p : Proof} {r : Forest × Bool}
    (h : Forest.delete f p = some r) :
    (r = (f, false)) ∨
    (r.2 = true ∧ Forest.verify f p = some true ∧
      r.1.forest.length < f.forest.length) := by
  unfold Forest.delete at h
  split at h
  · cases h
    exact Or.inl rfl
  · simp only [Option.bind_eq_bind] at h
    cases h1 : getTreeRefAt f (f.leaf_distribution.length - 1) with
    | none => rw [h1] at h; exact Option.noConfusion h
    | some last_tree =>
      rw [h1] at h
      simp only [Option.some_bind] at h
      try dsimp only at h
      split at h
      · exact Option.noConfusion h
      · rename_i hg1
        cases h2 : f.forest.get? (f.forest.length - TreeRef.height last_tree - 1) with
        | none => rw [h2] at h; exact Option.noConfusion h
        | some hswap =>
          rw [h2] at h
          simp only [Option.some_bind] at h
          cases h3 : binary_search_by f.leaf_distribution
              (cmpRev (path_leaves p.path)) with
          | error e =>
            rw [h3] at h
            try dsimp only at h
            cases h
            exact Or.inl rfl
          | ok index =>
            rw [h3] at h
            try dsimp only at h
            cases h4 : f.leaf_distribution.get? index with
            | none => rw [h4] at h; exact Option.noConfusion h
            | some lv =>
              rw [h4] at h
              simp only [Option.some_bind] at h
              try dsimp only at h
              split at h
              · exact Option.noConfusion h
              · rename_i hg2
                cases h5 : TreeRefMut.swap
                    ((f.forest.drop (nodesBefore f.leaf_distribution index)).take
                      (num_nodes lv)) p hswap with
                | none => rw [h5] at h; exact Option.noConfusion h
                | some pr =>
                  obtain ⟨tree1, ok⟩ := pr
                  rw [h5] at h
                  simp only [Option.some_bind] at h
                  cases ok with
                  | false =>
                    simp only [Bool.not_false, if_pos] at h
                    cases h
                    exact Or.inl rfl
                  | true =>
                    simp only [Bool.not_true, Bool.false_eq_true, if_false] at h
                    try dsimp only at h
                    split at h
                    · exact Option.noConfusion h
                    · rename_i hg3
                      rw [Option.bind_eq_some] at h
                      obtain ⟨f3, h6, h7⟩ := h
                      cases h7
                      obtain ⟨idx_lt, hcmp⟩ := binary_search_ok h3
                      have hgetD : f.leaf_distribution.getD index 0 = lv := by
                        rw [List.getD_eq_getD_get?, h4]
                        rfl
                      have hlv : lv = path_leaves p.path := by
                        have := cmpRev_eq (by rwa [hgetD] at hcmp)
                        exact this
                      have hpow : 0 < path_leaves p.path := Nat.pos_pow_of_pos _ (by norm_num)
                      have hni1 : 1 ≤ num_nodes lv := by
                        rw [hlv]
                        unfold num_nodes
                        rw [if_neg (by omega)]
                        omega
                      obtain ⟨root, hroot, hcase⟩ := swap_elim h5
                      rcases hcase with ⟨hbad, _, _⟩ | ⟨_, hlen1, hver⟩
                      · exact absurd hbad (by simp)
                      · have hg2le : nodesBefore f.leaf_distribution index + num_nodes lv ≤
                            f.forest.length := by omega
                        refine Or.inr ⟨rfl, ?_, ?_⟩
                        · unfold Forest.verify
                          dsimp only
                          rw [h3]
                          try dsimp only
                          have hread : f.forest.get? (nodesBefore f.leaf_distribution index +
                              num_nodes (path_leaves p.path) - 1) = some root := by
                            rw [← hlv, ← slice_root_eq hni1 hg2le]
                            exact hroot
                          rw [Option.bind_eq_bind, hread, Option.some_bind]
                          exact hver
                        · have e1 := (updateLoop_fields _ _ _ h6).1
                          have htree1 : tree1.length = num_nodes lv := by
                            rw [hlen1, List.length_take, List.length_drop]
                            omega
                          have hnb : nodesBefore f.leaf_distribution index ≤
                              f.forest.length := by omega
                          have hforest1 : (f.forest.take (nodesBefore f.leaf_distribution index)
                              ++ tree1 ++ f.forest.drop (nodesBefore f.leaf_distribution index +
                                num_nodes lv)).length = f.forest.length := by
                            simp only [List.length_append, List.length_take, List.length_drop,
                              htree1]
                            omega
                          rw [e1]
                          dsimp only
                          rw [List.length_take]
                          rw [hforest1] at hg3 ⊢
                          omega

theorem accumulator_verify_slot {acc : MemoryAccumulator} {q : AProof}
    (hv : acc.verify q = true) :
    ∃ root, acc.slots.getD q.path.length none = some root := by
  unfold MemoryAccumulator.verify at hv
  split at hv
  · simp at hv
  · split at hv
    · rename_i root heq
      exact ⟨root, heq⟩
    · simp at hv

theorem accDelete_changes {acc : MemoryAccumulator} {q : AProof}
    (hv : acc.verify q = true) :
    (⟨((accDeleteLoop (acc.slots.take q.path.length) q.sibling_hashes none).1 ++
        acc.slots.drop q.path.length).set q.path.length
        (accDeleteLoop (acc.slots.take q.path.length) q.sibling_hashes none).2⟩ :
      MemoryAccumulator) ≠ acc := by
  obtain ⟨hlen, hle⟩ := accumulator_verify_facts hv
  obtain ⟨root, hslot⟩ := accumulator_verify_slot hv
  intro he
  have hslots := congrArg MemoryAccumulator.slots he
  dsimp only at hslots
  cases hpath : q.path.length with
  | zero =>
    rw [hpath] at hslots hslot hlen
    have hsibs : q.sibling_hashes = [] := List.length_eq_zero.mp hlen
    rw [hsibs] at hslots
    cases hsl : acc.slots with
    | nil =>
      rw [hpath, hsl] at hle
      simp at hle
    | cons s0 rest =>
      rw [hsl] at hslots hslot
      simp only [List.take_nil, List.take_zero, List.drop_zero, accDeleteLoop,
        List.nil_append, List.set] at hslots
      have hs0 : s0 = none := ((List.cons.injEq _ _ _ _).mp hslots).1.symm
      rw [hs0] at hslot
      simp at hslot
  | succ k =>
    rw [hpath] at hslots hslot hlen hle
    cases hsib : q.sibling_hashes with
    | nil =>
      rw [hsib] at hlen
      simp at hlen
    | cons s ss =>
      cases hsl : acc.slots with
      | nil =>
        rw [hsl] at hle
        simp at hle
      | cons s0 rest =>
        rw [hsl, hsib] at hslots
        rw [List.take_succ_cons] at hslots
        cases hs0 : s0 with
        | none =>
          rw [hs0] at hslots
          simp only [accDeleteLoop, List.cons_append, List.set] at hslots
          exact Option.noConfusion ((List.cons.injEq _ _ _ _).mp hslots).1
        | some old =>
          rw [hs0] at hslots
          simp only [accDeleteLoop, List.cons_append, List.set] at hslots
          exact Option.noConfusion ((List.cons.injEq _ _ _ _).mp hslots).1

/-- C7: a `Forest::delete` or `MemoryAccumulator::delete` that returns
`false` leaves the state byte-identical to its pre-call state (the `Forest`
with all four fields, the accumulator with its slot vector); and `delete`
returns `true` only when the proof verified against the pre-call state and
the state was mutated. -/
theorem C7_delete_noop_or_mutate :
    (∀ (f : Forest) (p : Proof) (f2 : Forest),
      Forest.delete f p = some (f2, false) → f2 = f) ∧
    (∀ (f : Forest) (p : Proof) (f2 : Forest),
      Forest.delete f p = some (f2, true) →
        Forest.verify f p = some true ∧ f2 ≠ f) ∧
    (∀ (acc : MemoryAccumulator) (q : AProof) (acc2 : MemoryAccumulator),
      MemoryAccumulator.delete acc q = (acc2, false) → acc2 = acc) ∧
    (∀ (acc : MemoryAccumulator) (q : AProof) (acc2 : MemoryAccumulator),
      MemoryAccumulator.delete acc q = (acc2, true) →
        acc.verify q = true ∧ acc2 ≠ acc) := by
  refine ⟨?_, ?_, ?_, ?_⟩
  · intro f p f2 h
    rcases delete_elim h with he | ⟨hb, _, _⟩
    · exact ((Prod.mk.injEq _ _ _ _).mp he).1
    · exact absurd hb (by simp)
  · intro f p f2 h
    rcases delete_elim h with he | ⟨_, hv, hlt⟩
    · exact absurd ((Prod.mk.injEq _ _ _ _).mp he).2 (by simp)
    · refine ⟨hv, fun he => ?_⟩
      dsimp only at hlt
      rw [he] at hlt
      omega
  · intro acc q acc2 h
    unfold MemoryAccumulator.delete at h
    split at h
    · exact ((Prod.mk.injEq _ _ _ _).mp h).1.symm
    · exact absurd ((Prod.mk.injEq _ _ _ _).mp h).2 (by simp)
  · intro acc q acc2 h
    unfold MemoryAccumulator.delete at h
    split at h
    · exact absurd ((Prod.mk.injEq _ _ _ _).mp h).2 (by simp)
    · rename_i hnv
      have hv : acc.verify q = true := by
        by_cases hb : acc.verify q = true
        · exact hb
        · exact absurd hb (by simpa using hnv)
      refine ⟨hv, ?_⟩
      have hacc2 := ((Prod.mk.injEq _ _ _ _).mp h).1
      rw [← hacc2]
      exact accDelete_changes hv

/-- Witness for C7: a successful delete on a two-leaf forest was verified
against the pre-call state and mutated it. -/
theorem C7_witness :
    Forest.verify ⟨2, [hash_leaf [0], hash_leaf [1],
        hash_intermediate (hash_leaf [0]) (hash_leaf [1])], [2],
        [(hash_leaf [0], [false]), (hash_leaf [1], [true])]⟩
      ⟨[false], [0], [hash_leaf [1]]⟩ = some true ∧
    (⟨1, [hash_leaf [1]], [1], [(hash_leaf [1], [])]⟩ : Forest) ≠
      ⟨2, [hash_leaf [0], hash_leaf [1],
        hash_intermediate (hash_leaf [0]) (hash_leaf [1])], [2],
        [(hash_leaf [0], [false]), (hash_leaf [1], [true])]⟩ :=
  C7_delete_noop_or_mutate.2.1
    ⟨2, [hash_leaf [0], hash_leaf [1],
      hash_intermediate (hash_leaf [0]) (hash_leaf [1])], [2],
      [(hash_leaf [0], [false]), (hash_leaf [1], [true])]⟩
    ⟨[false], [0], [hash_leaf [1]]⟩
    ⟨1, [hash_leaf [1]], [1], [(hash_leaf [1], [])]⟩ (by decide)

/-! ### Claim C4: the slot–count bijection -/

theorem decompAux_fuel : ∀ (fuel1 fuel2 n : Nat), n < fuel1 → n < fuel2 →
    decompAux fuel1 n = decompAux fuel2 n := by
  intro fuel1
  induction fuel1 with
  | zero => intro fuel2 n h1 _; omega
  | succ fuel1 ih =>
    intro fuel2 n h1 h2
    cases fuel2 with
    | zero => omega
    | succ fuel2 =>
      by_cases hn : n = 0
      · simp [decompAux, hn]
      · simp only [decompAux, hn, if_false]
        rw [ih fuel2 (n / 2) (by omega) (by omega)]

theorem decomp_zero : decomp 0 = [] := rfl

theorem decomp_unfold (n : Nat) (hn : n ≠ 0) :
    decomp n = (decomp (n / 2)).map (fun x => 2 * x) ++
      (if n % 2 = 1 then [1] else []) := by
  unfold decomp
  conv =>
    lhs
    rw [decompAux]
  rw [if_neg hn]
  rw [decompAux_fuel n (n / 2 + 1) (n / 2) (by omega) (by omega)]

theorem decomp_ne_nil (n : Nat) (hn : n ≠ 0) : decomp n ≠ [] := by
  rcases Nat.mod_two_eq_zero_or_one n with hm | hm
  · have hhalf : n / 2 ≠ 0 := by omega
    have ih := decomp_ne_nil (n / 2) hhalf
    rw [decomp_unfold n hn, if_neg (by omega), List.append_nil]
    simpa using ih
  · rw [decomp_unfold n hn, if_pos hm]
    simp
termination_by n
decreasing_by omega

theorem decomp_split : ∀ (k m r : Nat), m % 2 ^ k = 0 → r < 2 ^ k →
    decomp (m + r) = decomp m ++ decomp r := by
  intro k
  induction k with
  | zero =>
    intro m r _ hr
    have hr0 : r = 0 := by simpa using hr
    simp [hr0, decomp_zero]
  | succ k ih =>
    intro m r hm hr
    by_cases hm0 : m = 0
    · simp [hm0, decomp_zero]
    · by_cases hr0 : r = 0
      · simp [hr0, decomp_zero]
      · have hdvd : 2 ^ (k + 1) ∣ m := Nat.dvd_of_mod_eq_zero hm
        have hmod2 : m % 2 = 0 := by
          have h1 : (2 : Nat) ∣ m :=
            (dvd_pow_self 2 (Nat.succ_ne_zero k)).trans hdvd
          omega
        have hm2 : (m / 2) % 2 ^ k = 0 := by
          obtain ⟨t, ht⟩ := hdvd
          have hform : 2 ^ (k + 1) * t = 2 * (2 ^ k * t) := by ring
          have hhalf : m / 2 = 2 ^ k * t := by
            rw [ht, hform]
            exact Nat.mul_div_cancel_left _ (by norm_num)
          rw [hhalf]
          exact Nat.mul_mod_right _ _
        have hp : (2 : Nat) ^ (k + 1) = 2 * 2 ^ k := by ring
        have hsum_ne : m + r ≠ 0 := by omega
        rw [decomp_unfold (m + r) hsum_ne, decomp_unfold m hm0,
          decomp_unfold r hr0]
        have hdiv : (m + r) / 2 = m / 2 + r / 2 := by omega
        have hmod : (m + r) % 2 = r % 2 := by omega
        rw [hdiv, hmod, ih (m / 2) (r / 2) hm2 (by omega)]
        rw [List.map_append, if_neg (by omega : ¬ m % 2 = 1)]
        simp [List.append_assoc]

theorem decomp_two_pow : ∀ (j : Nat), decomp (2 ^ j) = [2 ^ j] := by
  intro j
  induction j with
  | zero => rfl
  | succ j ih =>
    have hne : (2 : Nat) ^ (j + 1) ≠ 0 := by positivity
    have hp : (2 : Nat) ^ (j + 1) = 2 * 2 ^ j := by ring
    rw [decomp_unfold _ hne]
    have hdiv : 2 ^ (j + 1) / 2 = 2 ^ j := by omega
    have hmod : 2 ^ (j + 1) % 2 = 0 := by omega
    rw [hdiv, ih, if_neg (by omega)]
    simp [hp]

theorem getLast?_map {α β : Type} (f : α → β) (l : List α) :
    (l.map f).getLast? = (l.getLast?).map f := by
  induction l with
  | nil => rfl
  | cons a l ih =>
    cases l with
    | nil => rfl
    | cons b m => simpa using ih

theorem decomp_getLast (n : Nat) (hn : n ≠ 0) :
    ∃ l, (decomp n).getLast? = some (2 ^ l) ∧ n % 2 ^ (l + 1) = 2 ^ l := by
  rcases Nat.mod_two_eq_zero_or_one n with hm | hm
  · have hhalf : n / 2 ≠ 0 := by omega
    obtain ⟨l, hl, hml⟩ := decomp_getLast (n / 2) hhalf
    refine ⟨l + 1, ?_, ?_⟩
    · rw [decomp_unfold n hn, if_neg (by omega), List.append_nil,
        getLast?_map, hl]
      simp [pow_succ]
      ring
    · have h2 : n = 2 * (n / 2) := by omega
      calc n % 2 ^ (l + 1 + 1) = 2 * (n / 2) % (2 * 2 ^ (l + 1)) := by
            rw [← h2]
            congr 1
            ring
        _ = 2 * (n / 2 % 2 ^ (l + 1)) := Nat.mul_mod_mul_left 2 _ _
        _ = 2 * 2 ^ l := by rw [hml]
        _ = 2 ^ (l + 1) := by ring
  · refine ⟨0, ?_, by simpa using hm⟩
    rw [decomp_unfold n hn, if_pos hm, List.getLast?_concat]
    norm_num
termination_by n
decreasing_by omega

theorem decomp_mem (n : Nat) : ∀ (x : Nat),
    x ∈ decomp n ↔ ∃ k, x = 2 ^ k ∧ n.testBit k := by
  intro x
  by_cases hn : n = 0
  · subst hn
    simp [decomp_zero, Nat.zero_testBit]
  · have ih := decomp_mem (n / 2)
    rw [decomp_unfold n hn]
    constructor
    · intro hx
      rw [List.mem_append] at hx
      rcases hx with hx | hx
      · rw [List.mem_map] at hx
        obtain ⟨y, hy, hxy⟩ := hx
        obtain ⟨k, hk, hb⟩ := (ih y).mp hy
        refine ⟨k + 1, ?_, ?_⟩
        · rw [← hxy, hk]
          ring
        · rw [Nat.testBit_succ]
          exact hb
      · rcases Nat.mod_two_eq_zero_or_one n with hm | hm
        · simp [hm] at hx
        · simp [hm] at hx
          refine ⟨0, by simpa using hx, ?_⟩
          simp [Nat.testBit_zero]
          omega
    · rintro ⟨k, hk, hb⟩
      rw [List.mem_append]
      cases k with
      | zero =>
        right
        have hm : n % 2 = 1 := by
          rw [Nat.testBit_zero] at hb
          simpa using hb
        simp [hm, hk]
      | succ k =>
        left
        rw [Nat.testBit_succ] at hb
        rw [List.mem_map]
        refine ⟨2 ^ k, (ih (2 ^ k)).mpr ⟨k, rfl, hb⟩, ?_⟩
        rw [hk]
        ring
termination_by n
decreasing_by omega

theorem decomp_pos {n x : Nat} (hx : x ∈ decomp n) : 1 ≤ x := by
  obtain ⟨k, hk, _⟩ := (decomp_mem n x).mp hx
  rw [hk]
  exact Nat.one_le_two_pow

theorem decomp_sorted (n : Nat) : List.Chain' (fun a b => a > b) (decomp n) := by
  by_cases hn : n = 0
  · subst hn
    simp [decomp_zero]
  · have ih := decomp_sorted (n / 2)
    rw [decomp_unfold n hn]
    have hmap : List.Chain' (fun a b => a > b) ((decomp (n / 2)).map (fun x => 2 * x)) := by
      rw [List.chain'_map]
      exact ih.imp (fun a b hab => by omega)
    rcases Nat.mod_two_eq_zero_or_one n with hm | hm
    · simpa [hm] using hmap
    · rw [if_pos hm]
      apply List.Chain'.append hmap (by simp)
      intro a ha b hb
      have hb1 : b = 1 := by
        simp at hb
        omega
      rw [getLast?_map] at ha
      cases hl : (decomp (n / 2)).getLast? with
      | none => rw [hl] at ha; simp at ha
      | some y =>
        rw [hl] at ha
        simp at ha
        have hy : y ∈ decomp (n / 2) := by
          have hne : decomp (n / 2) ≠ [] := by
            intro he
            rw [he] at hl
            simp at hl
          have hmem := List.getLast_mem hne
          rw [List.getLast?_eq_getLast _ hne] at hl
          have hy2 := (Option.some.injEq _ _).mp hl
          exact hy2 ▸ hmem
        have hpos := decomp_pos hy
        omega
termination_by n
decreasing_by omega

theorem getD_last {α : Type} (d : α) : ∀ (l : List α) (y : α),
    l.getLast? = some y → l.getD (l.length - 1) d = y := by
  intro l
  induction l with
  | nil => intro y h; simp at h
  | cons a l ih =>
    intro y h
    cases l with
    | nil =>
      simp at h
      simp [h, List.getD]
    | cons b m =>
      rw [List.getLast?_cons_cons] at h
      have hres := ih y h
      simpa using hres

theorem get?_last {α : Type} : ∀ (l : List α),
    l.get? (l.length - 1) = l.getLast? := by
  intro l
  induction l with
  | nil => rfl
  | cons a l ih =>
    cases l with
    | nil => rfl
    | cons b m =>
      rw [List.getLast?_cons_cons]
      simp only [List.length_cons]
      have hres := ih
      rw [List.length_cons] at hres
      simpa using hres

theorem getD_append_left {α : Type} : ∀ (l l2 : List α) (i : Nat) (d : α),
    i < l.length → (l ++ l2).getD i d = l.getD i d := by
  intro l
  induction l with
  | nil => intro l2 i d h; simp at h
  | cons a l ih =>
    intro l2 i d h
    cases i with
    | zero => rfl
    | succ i =>
      simp only [List.length_cons] at h
      simpa using ih l2 i d (by omega)

/-- `decomp (2^l - 1)` is the full descending run of powers of two below
`2^l`, matching the distribution a deleted height-`l` tree decays into. -/
theorem decomp_pow_sub_one : ∀ (l : Nat),
    decomp (2 ^ l - 1) = (List.range l).reverse.map (fun i => 2 ^ i) := by
  intro l
  induction l with
  | zero => simp [decomp_zero]
  | succ l ih =>
    have h1 : (1 : Nat) ≤ 2 ^ l := Nat.one_le_two_pow
    have hp : (2 : Nat) ^ (l + 1) = 2 * 2 ^ l := by ring
    have hsplit : 2 ^ (l + 1) - 1 = 2 ^ l + (2 ^ l - 1) := by omega
    rw [hsplit, decomp_split l (2 ^ l) (2 ^ l - 1) (Nat.mod_self _) (by omega),
      decomp_two_pow, ih, List.range_succ, List.reverse_append]
    simp

/-- One compress-loop iteration on a distribution ending in two equal powers
of two merges them into the next power; the leaf count and the path map are
untouched. -/
theorem compressStep_dist {f f1 : Forest} {pre : List Nat} {j : Nat}
    (hd : f.leaf_distribution = pre ++ [2 ^ j] ++ [2 ^ j])
    (h : compressStep f = some f1) :
    f1.leaf_distribution = pre ++ [2 ^ (j + 1)] ∧
      f1.leaves = f.leaves ∧ f1.path_map = f.path_map := by
  unfold compressStep at h
  simp only [Option.bind_eq_bind] at h
  cases h1 : getTreeRefAt f (f.leaf_distribution.length - 2) with
  | none => rw [h1] at h; exact Option.noConfusion h
  | some left =>
    rw [h1] at h
    simp only [Option.some_bind] at h
    cases h2 : getTreeRefAt f (f.leaf_distribution.length - 1) with
    | none => rw [h2] at h; exact Option.noConfusion h
    | some right =>
      rw [h2] at h
      simp only [Option.some_bind] at h
      cases h3 : root_hash left with
      | none => rw [h3] at h; exact Option.noConfusion h
      | some lr =>
        rw [h3] at h
        simp only [Option.some_bind] at h
        cases h4 : root_hash right with
        | none => rw [h4] at h; exact Option.noConfusion h
        | some rr =>
          rw [h4] at h
          simp only [Option.some_bind] at h
          have hlast : f.leaf_distribution.getLast? = some (2 ^ j) := by
            rw [hd]
            exact List.getLast?_concat _
          rw [hlast] at h
          simp only [Option.some_bind] at h
          try dsimp only at h
          have hdrop : f.leaf_distribution.dropLast = pre ++ [2 ^ j] := by
            rw [hd]
            exact List.dropLast_concat
          rw [hdrop] at h
          have hlen : (pre ++ [2 ^ j]).length = pre.length + 1 := by simp
          rw [if_neg (by omega)] at h
          cases h
          refine ⟨?_, rfl, rfl⟩
          dsimp only
          rw [hlen]
          have hidx : pre.length + 1 - 1 = pre.length := by omega


          rw [hidx, getD_append_len, set_append_len]
          have hval : ([2 ^ j] : List Nat).getD 0 0 + 2 ^ j = 2 ^ (j + 1) := by
            simp [List.getD]
            ring
          rw [hval]
          rfl

/-- The `while is_compressible` loop of `Forest::compress`, started on a
canonical decomposition with one extra power-of-two tree appended, performs
binary-counter carry propagation: under success with enough fuel the final
distribution is the canonical decomposition of the combined leaf count, and
the leaf count and path map are untouched. -/
theorem compress_carry : ∀ (fuel m j : Nat) (f f2 : Forest),
    f.leaf_distribution = decomp m ++ [2 ^ j] →
    m % 2 ^ j = 0 →
    f.leaf_distribution.length ≤ fuel →
    compressFuel fuel f = some f2 →
    f2.leaf_distribution = decomp (m + 2 ^ j) ∧
      f2.leaves = f.leaves ∧ f2.path_map = f.path_map := by
  intro fuel
  induction fuel with
  | zero =>
    intro m j f f2 hd hm hlen h
    rw [hd] at hlen
    simp at hlen
  | succ fuel ih =>
    intro m j f f2 hd hm hlen h
    have hj1 : (1 : Nat) ≤ 2 ^ j := Nat.one_le_two_pow
    have hpj : (2 : Nat) ^ (j + 1) = 2 * 2 ^ j := by ring
    rw [compressFuel] at h
    by_cases hc : is_compressible f = true
    · rw [if_pos hc] at h
      simp only [is_compressible, Bool.and_eq_true, decide_eq_true_eq] at hc
      obtain ⟨hc1, hc2⟩ := hc
      rw [hd] at hc1 hc2
      have hlen2 : (decomp m ++ [2 ^ j]).length = (decomp m).length + 1 := by
        simp
      rw [hlen2] at hc1 hc2
      have hLpos : 1 ≤ (decomp m).length := by omega
      have hm0 : m ≠ 0 := by
        intro he
        rw [he, decomp_zero] at hLpos
        simp at hLpos
      obtain ⟨l, hl, hml⟩ := decomp_getLast m hm0
      have hg1 : (decomp m ++ [2 ^ j]).getD ((decomp m).length + 1 - 1) 0 =
          2 ^ j := by
        have hidx : (decomp m).length + 1 - 1 = (decomp m).length := by omega
        rw [hidx, getD_append_len]
        rfl
      have hg2 : (decomp m ++ [2 ^ j]).getD ((decomp m).length + 1 - 2) 0 =
          2 ^ l := by
        have hidx : (decomp m).length + 1 - 2 = (decomp m).length - 1 := by omega
        rw [hidx, getD_append_left _ _ _ _ (by omega)]
        exact getD_last 0 _ _ hl
      rw [hg1, hg2] at hc2
      have hlj : l = j := Nat.pow_right_injective (by norm_num) hc2.symm
      subst hlj
      have hmj : m % 2 ^ (l + 1) = 2 ^ l := hml
      have hq := Nat.div_add_mod m (2 ^ (l + 1))
      rw [hmj] at hq
      have hmdef : m - 2 ^ l = 2 ^ (l + 1) * (m / 2 ^ (l + 1)) := by omega
      have hm' : (m - 2 ^ l) % 2 ^ (l + 1) = 0 := by
        rw [hmdef]
        exact Nat.mul_mod_right _ _
      have hpl : (2 : Nat) ^ (l + 1) = 2 * 2 ^ l := by ring
      have hmdec : decomp m = decomp (m - 2 ^ l) ++ [2 ^ l] := by
        have hstep := decomp_split (l + 1) (m - 2 ^ l) (2 ^ l) hm' (by omega)
        rw [decomp_two_pow] at hstep
        have hsum : m - 2 ^ l + 2 ^ l = m := by omega
        rw [hsum] at hstep
        exact hstep
      have hd2 : f.leaf_distribution =
          decomp (m - 2 ^ l) ++ [2 ^ l] ++ [2 ^ l] := by
        rw [hd, hmdec]
      simp only [Option.bind_eq_bind, Option.bind_eq_some] at h
      obtain ⟨f1, hstep, hrest⟩ := h
      obtain ⟨e1, e2, e3⟩ := compressStep_dist hd2 hstep
      have hlen1 : f1.leaf_distribution.length ≤ fuel := by
        rw [e1]
        rw [hd2] at hlen
        simp at hlen ⊢
        omega
      obtain ⟨g1, g2, g3⟩ := ih (m - 2 ^ l) (l + 1) f1 f2 e1 hm' hlen1 hrest
      refine ⟨?_, g2.trans e2, g3.trans e3⟩
      rw [g1]
      have hsum2 : m - 2 ^ l + 2 ^ (l + 1) = m + 2 ^ l := by omega
      rw [hsum2]
    · rw [if_neg hc] at h
      cases h
      have hmod : m % 2 ^ (j + 1) = 0 := by
        by_cases hm0 : m = 0
        · rw [hm0]
          exact Nat.zero_mod _
        · obtain ⟨l, hl, hml⟩ := decomp_getLast m hm0
          have hL1 : 1 ≤ (decomp m).length := by
            have := decomp_ne_nil m hm0
            cases he : decomp m with
            | nil => exact absurd he this
            | cons a r => simp [he]
          simp only [is_compressible, Bool.and_eq_true, decide_eq_true_eq,
            not_and] at hc

          rw [hd] at hc
          have hlen2 : (decomp m ++ [2 ^ j]).length = (decomp m).length + 1 := by
            simp
          rw [hlen2] at hc
          have hne := hc (by omega)
          have hg1 : (decomp m ++ [2 ^ j]).getD ((decomp m).length + 1 - 1) 0 =
              2 ^ j := by
            have hidx : (decomp m).length + 1 - 1 = (decomp m).length := by omega
            rw [hidx, getD_append_len]
            rfl
          have hg2 : (decomp m ++ [2 ^ j]).getD ((decomp m).length + 1 - 2) 0 =
              2 ^ l := by
            have hidx : (decomp m).length + 1 - 2 = (decomp m).length - 1 := by
              omega
            rw [hidx, getD_append_left _ _ _ _ (by omega)]
            exact getD_last 0 _ _ hl
          rw [hg1, hg2] at hne
          have hlj : l ≠ j := by
            intro he
            rw [he] at hne
            exact hne rfl
          have hl1 : (1 : Nat) ≤ 2 ^ l := Nat.one_le_two_pow
          by_cases hlt : l < j
          · exfalso
            have hdvd : 2 ^ (l + 1) ∣ m :=
              dvd_trans (pow_dvd_pow 2 (by omega)) (Nat.dvd_of_mod_eq_zero hm)
            obtain ⟨t, ht⟩ := hdvd
            rw [ht, Nat.mul_mod_right] at hml
            omega
          · have hjl : j + 1 ≤ l := by omega
            have hq := Nat.div_add_mod m (2 ^ (l + 1))
            rw [hml] at hq
            have hdvd : 2 ^ (j + 1) ∣ m := by
              rw [← hq]
              exact Nat.dvd_add
                (Dvd.dvd.mul_right (pow_dvd_pow 2 (by omega)) _)
                (pow_dvd_pow 2 (by omega))
            obtain ⟨t, ht⟩ := hdvd
            rw [ht]
            exact Nat.mul_mod_right _ _
      have hres := decomp_split (j + 1) m (2 ^ j) hmod (by omega)
      rw [decomp_two_pow] at hres
      exact ⟨by rw [hres, hd], rfl, rfl⟩

/-- `Forest::insert_hash` keeps the leaf distribution equal to the canonical
decomposition of the leaf count (under success). -/
theorem insert_hash_dist {f f2 : Forest} {h : Hash}
    (hwf : f.leaf_distribution = decomp f.leaves)
    (hh : f.insert_hash h = some f2) :
    f2.leaf_distribution = decomp f2.leaves := by
  unfold Forest.insert_hash at hh
  by_cases hmem : mapContains f.path_map h = true
  · rw [if_pos hmem] at hh
    cases hh
    exact hwf
  · rw [if_neg hmem] at hh
    simp only [Option.bind_eq_bind, Option.bind_eq_some] at hh
    obtain ⟨fc, hcomp, hup⟩ := hh
    unfold Forest.compress at hcomp
    have hd1 : (Forest.mk (f.leaves + 1) (f.forest ++ [h])
        (f.leaf_distribution ++ [1]) f.path_map).leaf_distribution =
          decomp f.leaves ++ [2 ^ 0] := by
      dsimp only
      rw [hwf]
      norm_num
    obtain ⟨g1, g2, _⟩ := compress_carry _ f.leaves 0 _ fc hd1
      (by simp [Nat.mod_one]) (le_refl _) hcomp
    unfold update_paths at hup
    obtain ⟨_, e2, e3⟩ := update_paths_fields hup
    rw [e3, g1, e2, g2]
    dsimp only
    norm_num

/-- The fold of `Forest::extend` preserves the canonical-decomposition
invariant (under success). -/
theorem extend_dist_aux : ∀ (hs : List Hash) (f f2 : Forest),
    f.leaf_distribution = decomp f.leaves →
    hs.foldlM Forest.insert_hash f = some f2 →
    f2.leaf_distribution = decomp f2.leaves := by
  intro hs
  induction hs with
  | nil =>
    intro f f2 hwf h
    simp only [List.foldlM_nil] at h
    cases h
    exact hwf
  | cons a rest ih =>
    intro f f2 hwf h
    simp only [List.foldlM_cons] at h
    cases h1 : f.insert_hash a with
    | none => rw [h1] at h; exact Option.noConfusion h
    | some f1 =>
      rw [h1] at h
      have hbind : (some f1 >>= rest.foldlM Forest.insert_hash) =
          rest.foldlM Forest.insert_hash f1 := rfl
      rw [hbind] at h
      exact ih f1 f2 (insert_hash_dist hwf h1) h

/-- `get_tree_ref_with_index` success names the distribution entry and the
in-bounds slice it returns. -/
theorem getTreeRefAt_elim {f : Forest} {i : Nat} {t : List Hash}
    (h : getTreeRefAt f i = some t) :
    ∃ lv, f.leaf_distribution.get? i = some lv ∧
      nodesBefore f.leaf_distribution i + num_nodes lv ≤ f.forest.length ∧
      t = (f.forest.drop (nodesBefore f.leaf_distribution i)).take
        (num_nodes lv) := by
  unfold getTreeRefAt at h
  simp only [Option.bind_eq_bind] at h
  cases h1 : f.leaf_distribution.get? i with
  | none => rw [h1] at h; exact Option.noConfusion h
  | some lv =>
    rw [h1] at h
    simp only [Option.some_bind] at h
    try dsimp only at h
    split at h
    · rename_i hle
      cases h
      exact ⟨lv, rfl, hle, rfl⟩
    · exact Option.noConfusion h

/-- A slice holding exactly the nodes of a perfect tree with `2^l` leaves has
height `l`. -/
theorem treeRef_height_pow {t : List Hash} {l : Nat}
    (ht : t.length = num_nodes (2 ^ l)) : TreeRef.height t = l := by
  have h1 : (1 : Nat) ≤ 2 ^ l := Nat.one_le_two_pow
  have hn : num_nodes (2 ^ l) = 2 * 2 ^ l - 1 := by
    unfold num_nodes
    rw [if_neg (by omega)]
  unfold TreeRef.height TreeRef.leaves height
  rw [ht, hn]
  have hdiv : (2 * 2 ^ l - 1) / 2 + 1 = 2 ^ l := by omega
  rw [hdiv]
  exact trailing_zeros_pow2 l

/-- `Forest::delete` keeps the leaf distribution equal to the canonical
decomposition of the leaf count (under success): removing a leaf from the
rightmost tree of height `l` replaces its slot by the descending run of
powers below `2^l`, which is exactly the decomposition of `N - 1`. -/
theorem delete_dist {f : Forest} {p : Proof} {r : Forest × Bool}
    (hwf : f.leaf_distribution = decomp f.leaves)
    (h : Forest.delete f p = some r) :
    r.1.leaf_distribution = decomp r.1.leaves := by
  unfold Forest.delete at h
  split at h
  · cases h
    exact hwf
  · rename_i hne0
    simp only [Option.bind_eq_bind] at h
    cases h1 : getTreeRefAt f (f.leaf_distribution.length - 1) with
    | none => rw [h1] at h; exact Option.noConfusion h
    | some last_tree =>
      rw [h1] at h
      simp only [Option.some_bind] at h
      try dsimp only at h
      split at h
      · exact Option.noConfusion h
      · rename_i hg1
        cases h2 : f.forest.get? (f.forest.length - TreeRef.height last_tree - 1) with
        | none => rw [h2] at h; exact Option.noConfusion h
        | some hsw =>
          rw [h2] at h
          simp only [Option.some_bind] at h
          cases h3 : binary_search_by f.leaf_distribution
              (cmpRev (path_leaves p.path)) with
          | error e =>
            rw [h3] at h
            try dsimp only at h
            cases h
            exact hwf
          | ok index =>
            rw [h3] at h
            try dsimp only at h
            cases h4 : f.leaf_distribution.get? index with
            | none => rw [h4] at h; exact Option.noConfusion h
            | some lv =>
              rw [h4] at h
              simp only [Option.some_bind] at h
              try dsimp only at h
              split at h
              · exact Option.noConfusion h
              · rename_i hg2
                cases h5 : TreeRefMut.swap
                    ((f.forest.drop (nodesBefore f.leaf_distribution index)).take
                      (num_nodes lv)) p hsw with
                | none => rw [h5] at h; exact Option.noConfusion h
                | some pr =>
                  obtain ⟨tree1, ok⟩ := pr
                  rw [h5] at h
                  simp only [Option.some_bind] at h
                  cases ok with
                  | false =>
                    simp only [Bool.not_false, if_pos] at h
                    cases h
                    exact hwf
                  | true =>
                    simp only [Bool.not_true, Bool.false_eq_true, if_false] at h
                    try dsimp only at h
                    split at h
                    · exact Option.noConfusion h
                    · rename_i hg3
                      rw [Option.bind_eq_some] at h
                      obtain ⟨f3, h6, h7⟩ := h
                      cases h7
                      obtain ⟨_, e2, e3⟩ := updateLoop_fields _ _ _ h6
                      dsimp only at e2 e3
                      have hN0 : f.leaves ≠ 0 := by
                        intro he
                        rw [he, decomp_zero] at hwf
                        rw [hwf] at hne0
                        simp at hne0
                      obtain ⟨l, hl, hml⟩ := decomp_getLast f.leaves hN0
                      obtain ⟨lvL, hlvL, hleL, htL⟩ := getTreeRefAt_elim h1
                      have hget : f.leaf_distribution.get?
                          (f.leaf_distribution.length - 1) = some (2 ^ l) := by
                        rw [get?_last, hwf]
                        exact hl
                      have hlvval : lvL = 2 ^ l := by
                        rw [hget] at hlvL
                        exact (Option.some.injEq _ _).mp hlvL.symm
                      have hlenL : last_tree.length = num_nodes lvL := by
                        rw [htL, List.length_take, List.length_drop]
                        omega
                      have hhl : TreeRef.height last_tree = l :=
                        treeRef_height_pow (by rw [hlenL, hlvval])
                      have hj1 : (1 : Nat) ≤ 2 ^ l := Nat.one_le_two_pow
                      have hpl : (2 : Nat) ^ (l + 1) = 2 * 2 ^ l := by ring
                      have hq := Nat.div_add_mod f.leaves (2 ^ (l + 1))
                      rw [hml] at hq
                      have hmdef : f.leaves - 2 ^ l =
                          2 ^ (l + 1) * (f.leaves / 2 ^ (l + 1)) := by omega
                      have hm' : (f.leaves - 2 ^ l) % 2 ^ (l + 1) = 0 := by
                        rw [hmdef]
                        exact Nat.mul_mod_right _ _
                      have hmdec : decomp f.leaves =
                          decomp (f.leaves - 2 ^ l) ++ [2 ^ l] := by
                        have hstep := decomp_split (l + 1) (f.leaves - 2 ^ l)
                          (2 ^ l) hm' (by omega)
                        rw [decomp_two_pow] at hstep
                        have hsum : f.leaves - 2 ^ l + 2 ^ l = f.leaves := by
                          omega
                        rw [hsum] at hstep
                        exact hstep
                      dsimp only
                      rw [e3, e2, hhl, if_neg hN0]
                      rw [hwf, hmdec, List.dropLast_concat]
                      have hstep2 := decomp_split (l + 1) (f.leaves - 2 ^ l)
                        (2 ^ l - 1) hm' (by omega)
                      rw [decomp_pow_sub_one] at hstep2
                      have hsum2 : f.leaves - 2 ^ l + (2 ^ l - 1) =
                          f.leaves - 1 := by omega
                      rw [hsum2] at hstep2
                      rw [← hstep2]

/-- Every successful operation (insert, extend, delete) preserves the
canonical-decomposition invariant of the leaf distribution. -/
theorem applyOp_dist {f f2 : Forest} {op : Op}
    (hwf : f.leaf_distribution = decomp f.leaves)
    (h : applyOp f op = some f2) :
    f2.leaf_distribution = decomp f2.leaves := by
  cases op with
  | ins v => exact insert_hash_dist hwf h
  | ext vs => exact extend_dist_aux _ f f2 hwf h
  | del p =>
    unfold applyOp at h
    dsimp only at h
    cases h1 : Forest.delete f p with
    | none => rw [h1] at h; exact Option.noConfusion h
    | some pr =>
      rw [h1] at h
      have h2 : pr.1 = f2 := by simpa using h
      rw [← h2]
      exact delete_dist hwf h1

/-- Any successful operation sequence preserves the canonical-decomposition
invariant of the leaf distribution. -/
theorem applyOps_dist : ∀ (ops : List Op) (f S : Forest),
    f.leaf_distribution = decomp f.leaves →
    applyOps ops f = some S →
    S.leaf_distribution = decomp S.leaves := by
  intro ops
  induction ops with
  | nil =>
    intro f S hwf h
    simp only [applyOps, List.foldlM_nil] at h
    cases h
    exact hwf
  | cons op rest ih =>
    intro f S hwf h
    simp only [applyOps, List.foldlM_cons] at h
    cases h1 : applyOp f op with
    | none => rw [h1] at h; exact Option.noConfusion h
    | some f1 =>
      rw [h1] at h
      have hbind : (some f1 >>= rest.foldlM applyOp) =
          rest.foldlM applyOp f1 := rfl
      rw [hbind] at h
      exact ih f1 S (applyOp_dist hwf h1) h

/-- The accumulator insert loop is a binary-counter increment on the slot
occupancy word. -/
theorem natOfSlots_insert : ∀ (slots : List (Option Hash)) (h : Hash),
    natOfSlots (accInsertLoop h slots) = natOfSlots slots + 1 := by
  intro slots
  induction slots with
  | nil => intro h; rfl
  | cons s rest ih =>
    intro h
    cases s with
    | none =>
      simp [accInsertLoop, natOfSlots]
      omega
    | some old =>
      simp [accInsertLoop, natOfSlots, ih]
      ring

/-- Slot occupancy reads off the bits of the occupancy word. -/
theorem natOfSlots_testBit : ∀ (slots : List (Option Hash)) (k : Nat),
    (slots.getD k none).isSome = (natOfSlots slots).testBit k := by
  intro slots
  induction slots with
  | nil =>
    intro k
    simp [natOfSlots, Nat.zero_testBit]
  | cons s rest ih =>
    intro k
    cases k with
    | zero =>
      cases s with
      | none =>
        have hmod : (0 + 2 * natOfSlots rest) % 2 = 0 := by omega
        simp [natOfSlots, Nat.testBit_zero, hmod]
      | some a =>
        have hmod : (1 + 2 * natOfSlots rest) % 2 = 1 := by omega
        simp [natOfSlots, Nat.testBit_zero, hmod]
    | succ k =>
      have hdiv : ∀ (b : Nat), b ≤ 1 →
          (b + 2 * natOfSlots rest) / 2 = natOfSlots rest := by
        intro b hb
        omega
      cases s with
      | none =>
        rw [List.getD_cons_succ, ih k]
        simp only [natOfSlots, Option.isSome_none, Bool.false_eq_true,
          if_false, Nat.testBit_succ]
        rw [hdiv 0 (by omega)]
      | some a =>
        rw [List.getD_cons_succ, ih k]
        simp only [natOfSlots, Option.isSome_some, if_true,
          Nat.testBit_succ]
        rw [hdiv 1 (by omega)]

/-- Inserting `n` values into an accumulator adds `n` to its occupancy
word. -/
theorem insertMany_count : ∀ (vals : List (List Nat)) (acc : MemoryAccumulator),
    natOfSlots (acc.insertMany vals).slots = natOfSlots acc.slots + vals.length := by
  intro vals
  induction vals with
  | nil =>
    intro acc
    simp [MemoryAccumulator.insertMany]
  | cons v rest ih =>
    intro acc
    simp only [MemoryAccumulator.insertMany, List.foldl_cons] at *
    rw [ih, List.length_cons]
    have hone : natOfSlots (acc.insert v).slots = natOfSlots acc.slots + 1 := by
      unfold MemoryAccumulator.insert
      exact natOfSlots_insert acc.slots (hash_leaf v)
    rw [hone]
    omega

/-- C4: after every successful operation sequence (insert, extend, delete) on
an initially empty `Forest` holding `N` leaves, the stored leaf distribution
is strictly descending and its entries are exactly the powers of two of the
set bits of `N`; and after inserting any value sequence into an empty
`MemoryAccumulator` the slot at height `h` is occupied iff bit `h` of the
number of inserted values (its leaf count) is set. -/
theorem C4_slot_count_bijection (ops : List Op) (S : Forest)
    (hS : applyOps ops Forest.new = some S) (vals : List (List Nat)) :
    (List.Chain' (fun a b => a > b) S.leaf_distribution ∧
      ∀ x, x ∈ S.leaf_distribution ↔ ∃ k, x = 2 ^ k ∧ S.leaves.testBit k) ∧
    ∀ h, ((MemoryAccumulator.insertMany ⟨[]⟩ vals).slots.getD h none).isSome =
      Nat.testBit vals.length h := by
  have hwf : S.leaf_distribution = decomp S.leaves :=
    applyOps_dist ops Forest.new S (by rfl) hS
  refine ⟨⟨?_, ?_⟩, ?_⟩
  · rw [hwf]
    exact decomp_sorted _
  · intro x
    rw [hwf]
    exact decomp_mem _ x
  · intro h
    rw [natOfSlots_testBit, insertMany_count]
    simp [natOfSlots]

/-- Witness for C4: three inserts reach the forest with distribution
`[2, 1]` (the set bits of `N = 3`), and the accumulator occupancy after
three inserts matches the bits of `3`. -/
theorem C4_witness :
    applyOps [Op.ins [0], Op.ins [1], Op.ins [2]] Forest.new =
      some (Forest.mk 3
        [hash_leaf [0], hash_leaf [1],
          hash_intermediate (hash_leaf [0]) (hash_leaf [1]), hash_leaf [2]]
        [2, 1]
        [(hash_leaf [0], [false]), (hash_leaf [1], [true]),
          (hash_leaf [2], [])]) ∧
    ((List.Chain' (fun a b => a > b) (Forest.mk 3
        [hash_leaf [0], hash_leaf [1],
          hash_intermediate (hash_leaf [0]) (hash_leaf [1]), hash_leaf [2]]
        [2, 1]
        [(hash_leaf [0], [false]), (hash_leaf [1], [true]),
          (hash_leaf [2], [])]).leaf_distribution ∧
      ∀ x, x ∈ (Forest.mk 3
        [hash_leaf [0], hash_leaf [1],
          hash_intermediate (hash_leaf [0]) (hash_leaf [1]), hash_leaf [2]]
        [2, 1]
        [(hash_leaf [0], [false]), (hash_leaf [1], [true]),
          (hash_leaf [2], [])]).leaf_distribution ↔
        ∃ k, x = 2 ^ k ∧ Nat.testBit (Forest.mk 3
          [hash_leaf [0], hash_leaf [1],
            hash_intermediate (hash_leaf [0]) (hash_leaf [1]), hash_leaf [2]]
          [2, 1]
          [(hash_leaf [0], [false]), (hash_leaf [1], [true]),
            (hash_leaf [2], [])]).leaves k) ∧
      ∀ h, ((MemoryAccumulator.insertMany ⟨[]⟩
          [[0], [1], [2]]).slots.getD h none).isSome =
        Nat.testBit ([[0], [1], [2]] : List (List Nat)).length h) :=
  ⟨by decide,
    C4_slot_count_bijection [Op.ins [0], Op.ins [1], Op.ins [2]]
      (Forest.mk 3
        [hash_leaf [0], hash_leaf [1],
          hash_intermediate (hash_leaf [0]) (hash_leaf [1]), hash_leaf [2]]
        [2, 1]
        [(hash_leaf [0], [false]), (hash_leaf [1], [true]),
          (hash_leaf [2], [])])
      (by decide) [[0], [1], [2]]⟩

theorem getD_set_ne {α : Type} : ∀ (t : List α) (j i : Nat) (x d : α),
    i ≠ j → (t.set j x).getD i d = t.getD i d := by
  intro t
  induction t with
  | nil => intro j i x d _; rfl
  | cons a t ih =>
    intro j i x d hne
    cases j with
    | zero =>
      cases i with
      | zero => exact absurd rfl hne
      | succ i => rfl
    | succ j =>
      cases i with
      | zero => rfl
      | succ i => simpa using ih j i x d (by omega)

theorem getD_set_self {α : Type} : ∀ (t : List α) (j : Nat) (x d : α),
    j < t.length → (t.set j x).getD j d = x := by
  intro t
  induction t with
  | nil => intro j x d h; simp at h
  | cons a t ih =>
    intro j x d h
    cases j with
    | zero => rfl
    | succ j =>
      simp only [List.length_cons] at h
      simpa using ih j x d (by omega)

theorem getD_reverse {α : Type} (l : List α) (j : Nat) (d : α)
    (h : j < l.length) :
    l.reverse.getD j d = l.getD (l.length - 1 - j) d := by
  rw [List.getD_eq_getD_get?, List.getD_eq_getD_get?, List.get?_reverse h]

theorem zip_reverse_eq {α β : Type} : ∀ (l1 : List α) (l2 : List β),
    l1.length = l2.length → l1.reverse.zip l2.reverse = (l1.zip l2).reverse := by
  intro l1
  induction l1 with
  | nil =>
    intro l2 h
    have h2 : l2 = [] := by
      cases l2 with
      | nil => rfl
      | cons b m => simp at h
    rw [h2]
    rfl
  | cons a l1 ih =>
    intro l2 h
    cases l2 with
    | nil => simp at h
    | cons b l2 =>
      simp only [List.length_cons] at h
      simp only [List.reverse_cons, List.zip_cons_cons]
      rw [List.zip_append (by simp only [List.length_reverse]; omega),
        ih l2 (by omega)]
      simp

theorem reverse_take_drop {α : Type} (q : List α) (j : Nat) :
    q.reverse.take (q.length - j) = (q.drop j).reverse :=
  List.reverse_drop.symm

theorem buildNewHashes_length : ∀ (ss : List (Bool × Hash)) (h : Hash),
    (buildNewHashes ss h).length = ss.length + 1 := by
  intro ss
  induction ss with
  | nil => intro h; rfl
  | cons st rest ih =>
    intro h
    obtain ⟨d, s⟩ := st
    simp [buildNewHashes, ih]

theorem buildNewHashes_getD : ∀ (ss : List (Bool × Hash)) (h : Hash) (i : Nat),
    i ≤ ss.length →
    (buildNewHashes ss h).getD i (Hash.raw []) = specFoldSteps (ss.take i) h := by
  intro ss
  induction ss with
  | nil =>
    intro h i hi
    have h0 : i = 0 := by simpa using hi
    rw [h0]
    rfl
  | cons st rest ih =>
    intro h i hi
    obtain ⟨d, s⟩ := st
    cases i with
    | zero => rfl
    | succ i =>
      simp only [List.length_cons] at hi
      rw [List.take_succ_cons]
      show (buildNewHashes rest _).getD i (Hash.raw []) = _
      rw [ih _ i (by omega)]
      rfl

theorem pathPositions_length : ∀ (ds : List Bool) (base : Nat),
    (pathPositions base ds).length = ds.length + 1 := by
  intro ds
  induction ds with
  | nil => intro base; rfl
  | cons d ds ih =>
    intro base
    cases d with
    | false => simp [pathPositions, ih]
    | true => simp [pathPositions, ih]

theorem pathPositions_head_mem : ∀ (ds : List Bool) (base : Nat),
    base + 2 ^ (ds.length + 1) - 2 ∈ pathPositions base ds := by
  intro ds base
  cases ds with
  | nil =>
    have he : base + 2 ^ (List.length ([] : List Bool) + 1) - 2 = base := by
      norm_num
    rw [he]
    simp [pathPositions]
  | cons d ds =>
    have he : (2 : Nat) ^ ((d :: ds).length + 1) = 2 ^ (ds.length + 2) := rfl
    rw [he]
    simp [pathPositions]

theorem pathPositions_getD_zero : ∀ (ds : List Bool) (base : Nat),
    (pathPositions base ds).getD 0 0 = base + 2 ^ (ds.length + 1) - 2 := by
  intro ds base
  cases ds with
  | nil =>
    show base = base + 2 ^ 1 - 2
    omega
  | cons d ds => rfl

theorem pathPositions_bounds : ∀ (ds : List Bool) (base x : Nat),
    x ∈ pathPositions base ds →
    base ≤ x ∧ x ≤ base + 2 ^ (ds.length + 1) - 2 := by
  intro ds
  induction ds with
  | nil =>
    intro base x hx
    simp [pathPositions] at hx
    subst hx
    refine ⟨le_refl _, ?_⟩
    norm_num
  | cons d ds ih =>
    intro base x hx
    have hmono : (2 : Nat) ^ (ds.length + 1) ≤ 2 ^ (ds.length + 2) :=
      Nat.pow_le_pow_right (by norm_num) (by omega)
    have hpos : (1 : Nat) ≤ 2 ^ (ds.length + 1) := Nat.one_le_two_pow
    have he : (2 : Nat) ^ ((d :: ds).length + 1) = 2 ^ (ds.length + 2) := rfl
    have hp2 : (2 : Nat) ^ (ds.length + 2) = 2 * 2 ^ (ds.length + 1) := by
      ring
    rw [he]
    simp only [pathPositions, List.mem_cons] at hx
    rcases hx with hx | hx
    · omega
    · cases d with
      | false =>
        rw [if_neg (by simp)] at hx
        have := ih base x hx
        omega
      | true =>
        rw [if_pos rfl] at hx
        have := ih (base + 2 ^ (ds.length + 1) - 1) x hx
        omega

theorem pathPositions_head_notin_tail : ∀ (ds : List Bool) (base : Nat),
    base + 2 ^ (ds.length + 1) - 2 ∉ (pathPositions base ds).drop 1 := by
  intro ds base
  cases ds with
  | nil =>
    simp [pathPositions]
  | cons d ds =>
    intro hmem
    have hpos : (1 : Nat) ≤ 2 ^ (ds.length + 1) := Nat.one_le_two_pow
    have hp2 : (2 : Nat) ^ (ds.length + 2) = 2 * 2 ^ (ds.length + 1) := by ring
    have he : (2 : Nat) ^ ((d :: ds).length + 1) = 2 ^ (ds.length + 2) := rfl
    rw [he] at hmem
    simp only [pathPositions, List.drop_succ_cons, List.drop_zero] at hmem
    cases d with
    | false =>
      rw [if_neg (by simp)] at hmem
      have := pathPositions_bounds ds base _ hmem
      omega
    | true =>
      rw [if_pos rfl] at hmem
      have := pathPositions_bounds ds (base + 2 ^ (ds.length + 1) - 1) _ hmem
      omega

theorem swapWrites_cons_false (v : Hash) (rest : List (Bool × Hash))
    (ci lv : Nat) (t : List Hash) :
    swapWrites ((false, v) :: rest) ci lv t =
      if ci < lv then none
      else if ci - lv < t.length then
        swapWrites rest (ci - lv) (lv / 2) (t.set (ci - lv) v)
      else none := rfl

theorem swapWrites_cons_true (v : Hash) (rest : List (Bool × Hash))
    (ci lv : Nat) (t : List Hash) :
    swapWrites ((true, v) :: rest) ci lv t =
      if ci < 1 then none
      else if ci - 1 < t.length then
        swapWrites rest (ci - 1) (lv / 2) (t.set (ci - 1) v)
      else none := rfl

/-- The write-back loop of `TreeRefMut::swap`, started at the root of the
block `[base, base + 2^(k+1) - 2]` holding a perfect subtree for the given
path of length `k`, succeeds on any slice long enough for the block, keeps
the length, writes the supplied values exactly at the successive path node
positions below the block root, and leaves every other index untouched. -/
theorem swapWrites_spec : ∀ (ds : List Bool) (vs : List Hash) (base : Nat)
    (t0 : List Hash), vs.length = ds.length →
    base + 2 ^ (ds.length + 1) - 1 ≤ t0.length →
    ∃ t2, swapWrites (ds.zip vs) (base + 2 ^ (ds.length + 1) - 2)
        (2 ^ ds.length) t0 = some t2 ∧
      t2.length = t0.length ∧
      (∀ i, i ∉ (pathPositions base ds).drop 1 →
        t2.getD i (Hash.raw []) = t0.getD i (Hash.raw [])) ∧
      (∀ j, j < ds.length →
        t2.getD ((pathPositions base ds).getD (j + 1) 0) (Hash.raw []) =
          vs.getD j (Hash.raw [])) := by
  intro ds
  induction ds with
  | nil =>
    intro vs base t0 hvs hle
    have hvs0 : vs = [] := List.eq_nil_of_length_eq_zero hvs
    subst hvs0
    exact ⟨t0, rfl, rfl, fun i _ => rfl, fun j hj => absurd hj (by simp)⟩
  | cons d ds ih =>
    intro vs base t0 hvs hle
    cases vs with
    | nil => simp at hvs
    | cons v vs =>
      simp only [List.length_cons] at hvs
      have hvs' : vs.length = ds.length := by omega
      have hpos : (1 : Nat) ≤ 2 ^ (ds.length + 1) := Nat.one_le_two_pow
      have hpos0 : (1 : Nat) ≤ 2 ^ ds.length := Nat.one_le_two_pow
      have hp2 : (2 : Nat) ^ (ds.length + 2) = 2 * 2 ^ (ds.length + 1) := by
        ring
      have hp1 : (2 : Nat) ^ (ds.length + 1) = 2 * 2 ^ ds.length := by ring
      have hle2 : base + 2 ^ (ds.length + 2) - 1 ≤ t0.length := hle
      have hlv : 2 ^ (ds.length + 1) / 2 = 2 ^ ds.length := by omega
      show ∃ t2, swapWrites ((d, v) :: ds.zip vs)
          (base + 2 ^ (ds.length + 2) - 2) (2 ^ (ds.length + 1)) t0 =
            some t2 ∧
        t2.length = t0.length ∧
        (∀ i, i ∉ (pathPositions base (d :: ds)).drop 1 →
          t2.getD i (Hash.raw []) = t0.getD i (Hash.raw [])) ∧
        (∀ j, j < (d :: ds).length →
          t2.getD ((pathPositions base (d :: ds)).getD (j + 1) 0)
              (Hash.raw []) =
            (v :: vs).getD j (Hash.raw []))
      cases d with
      | false =>
        have hci : base + 2 ^ (ds.length + 2) - 2 - 2 ^ (ds.length + 1) =
            base + 2 ^ (ds.length + 1) - 2 := by omega
        have hguard : ¬ (base + 2 ^ (ds.length + 2) - 2 <
            2 ^ (ds.length + 1)) := by omega
        have hwrite : base + 2 ^ (ds.length + 1) - 2 < t0.length := by omega
        have hPP : pathPositions base (false :: ds) =
            (base + 2 ^ (ds.length + 2) - 2) :: pathPositions base ds := rfl
        rw [swapWrites_cons_false, if_neg hguard, hci, if_pos hwrite, hlv]
        obtain ⟨t2, hrec, hlen2, hframe, hvals⟩ := ih vs base
          (t0.set (base + 2 ^ (ds.length + 1) - 2) v) hvs'
          (by rw [List.length_set]; omega)
        rw [List.length_set] at hlen2
        refine ⟨t2, hrec, hlen2, ?_, ?_⟩
        · intro i hi
          rw [hPP, List.drop_succ_cons, List.drop_zero] at hi
          have hi2 : i ∉ (pathPositions base ds).drop 1 := by
            intro hmem
            exact hi (List.drop_subset _ _ hmem)
          have hne : i ≠ base + 2 ^ (ds.length + 1) - 2 := by
            intro he
            exact hi (he ▸ pathPositions_head_mem ds base)
          rw [hframe i hi2, getD_set_ne _ _ _ _ _ hne]
        · intro j hj
          rw [hPP]
          cases j with
          | zero =>
            rw [List.getD_cons_succ, pathPositions_getD_zero]
            rw [hframe _ (pathPositions_head_notin_tail ds base)]
            rw [getD_set_self _ _ _ _ hwrite]
            rfl
          | succ j =>
            simp only [List.length_cons] at hj
            rw [List.getD_cons_succ, List.getD_cons_succ]
            exact hvals j (by omega)
      | true =>
        have hci : base + 2 ^ (ds.length + 2) - 2 - 1 =
            base + 2 ^ (ds.length + 1) - 1 + 2 ^ (ds.length + 1) - 2 := by
          omega
        have hguard : ¬ (base + 2 ^ (ds.length + 2) - 2 < 1) := by omega
        have hwrite : base + 2 ^ (ds.length + 1) - 1 +
            2 ^ (ds.length + 1) - 2 < t0.length := by omega
        have hPP : pathPositions base (true :: ds) =
            (base + 2 ^ (ds.length + 2) - 2) ::
              pathPositions (base + 2 ^ (ds.length + 1) - 1) ds := rfl
        rw [swapWrites_cons_true, if_neg hguard, hci, if_pos hwrite, hlv]
        obtain ⟨t2, hrec, hlen2, hframe, hvals⟩ := ih vs
          (base + 2 ^ (ds.length + 1) - 1)
          (t0.set (base + 2 ^ (ds.length + 1) - 1 + 2 ^ (ds.length + 1) - 2)
            v) hvs'
          (by rw [List.length_set]; omega)
        rw [List.length_set] at hlen2
        refine ⟨t2, hrec, hlen2, ?_, ?_⟩
        · intro i hi
          rw [hPP, List.drop_succ_cons, List.drop_zero] at hi
          have hi2 : i ∉ (pathPositions (base + 2 ^ (ds.length + 1) - 1)
              ds).drop 1 := by
            intro hmem
            exact hi (List.drop_subset _ _ hmem)
          have hne : i ≠ base + 2 ^ (ds.length + 1) - 1 +
              2 ^ (ds.length + 1) - 2 := by
            intro he
            apply hi
            have hmem := pathPositions_head_mem ds
              (base + 2 ^ (ds.length + 1) - 1)
            have harith : base + 2 ^ (ds.length + 1) - 1 +
                2 ^ (ds.length + 1) - 2 =
                base + 2 ^ (ds.length + 1) - 1 + 2 ^ (ds.length + 1) - 2 :=
              rfl
            rw [he]
            exact hmem
          rw [hframe i hi2, getD_set_ne _ _ _ _ _ hne]
        · intro j hj
          rw [hPP]
          cases j with
          | zero =>
            rw [List.getD_cons_succ, pathPositions_getD_zero]
            rw [hframe _ (pathPositions_head_notin_tail ds
              (base + 2 ^ (ds.length + 1) - 1))]
            rw [getD_set_self _ _ _ _ hwrite]
            rfl
          | succ j =>
            simp only [List.length_cons] at hj
            rw [List.getD_cons_succ, List.getD_cons_succ]
            exact hvals j (by omega)

/-- The reversed `new_hashes` vector built by `TreeRefMut::swap` lists, top
first, exactly the recomputed node values of claim C9. -/
theorem buildNewHashes_reverse_getD (p : Proof) (newLeaf : Hash) (j : Nat)
    (hsib : p.sibling_hashes.length = p.path.length)
    (hj : j ≤ p.path.length) :
    ((buildNewHashes (p.path.reverse.zip p.sibling_hashes.reverse)
        newLeaf).reverse).getD j (Hash.raw []) =
      specNodeValue p newLeaf j := by
  have hzq : (p.path.zip p.sibling_hashes).length = p.path.length := by
    rw [List.length_zip, hsib, Nat.min_self]
  have hss : p.path.reverse.zip p.sibling_hashes.reverse =
      (p.path.zip p.sibling_hashes).reverse :=
    zip_reverse_eq _ _ hsib.symm
  have hsslen : (p.path.reverse.zip p.sibling_hashes.reverse).length =
      p.path.length := by
    rw [hss, List.length_reverse, hzq]
  have hnh := buildNewHashes_length
    (p.path.reverse.zip p.sibling_hashes.reverse) newLeaf
  have hjlt : j < (buildNewHashes (p.path.reverse.zip
      p.sibling_hashes.reverse) newLeaf).length := by
    rw [hnh, hsslen]
    omega
  rw [getD_reverse _ _ _ hjlt, hnh, hsslen]
  have hidx : p.path.length + 1 - 1 - j = p.path.length - j := by omega
  rw [hidx]
  rw [buildNewHashes_getD _ _ _ (by rw [hsslen]; omega)]
  rw [hss]
  have htake : ((p.path.zip p.sibling_hashes).reverse).take
      (p.path.length - j) =
      ((p.path.zip p.sibling_hashes).drop j).reverse := by
    have hrt := reverse_take_drop (p.path.zip p.sibling_hashes) j
    rw [hzq] at hrt
    exact hrt
  rw [htake]
  rfl

/-- At the full path depth the recomputed node value of claim C9 is the new
leaf hash itself. -/
theorem specNodeValue_last (p : Proof) (newLeaf : Hash)
    (hsib : p.sibling_hashes.length = p.path.length) :
    specNodeValue p newLeaf p.path.length = newLeaf := by
  unfold specNodeValue
  have hzq : (p.path.zip p.sibling_hashes).length = p.path.length := by
    rw [List.length_zip, hsib, Nat.min_self]
  rw [← hzq, List.drop_length]
  rfl

/-- C9 counterexample: on the height-1 slice `[raw [0], raw [1], leaf [5]]`
the sibling-free proof `⟨[Left], [5], []⟩` verifies against the root (the
empty-sibling shortcut of `Proof::verify` ignores the non-empty path), and
`TreeRefMut::swap` then returns `true` rewriting only the root node: the
leaf position designated by the path (index 0) keeps its old value instead
of receiving the new leaf hash, so the claimed frame property fails for a
verifying proof. -/
theorem C9_counterexample :
    Proof.verify ⟨[false], [5], []⟩ (Hash.leaf [5]) = some true ∧
    root_hash [Hash.raw [0], Hash.raw [1], Hash.leaf [5]] =
      some (Hash.leaf [5]) ∧
    TreeRefMut.swap [Hash.raw [0], Hash.raw [1], Hash.leaf [5]]
        ⟨[false], [5], []⟩ (Hash.raw [2]) =
      some ([Hash.raw [0], Hash.raw [1], Hash.raw [2]], true) ∧
    pathPositions 0 [false] = [2, 0] ∧
    ([Hash.raw [0], Hash.raw [1], Hash.raw [2]] : List Hash).getD 0
        (Hash.raw []) ≠ Hash.raw [2] :=
  ⟨by decide, by decide, by decide, by decide, by decide⟩

/-- C9 (amended): for a proof whose sibling list has exactly path-height
entries, over a slice holding a full perfect tree for that height,
`TreeRefMut::swap` is exact: a non-verifying proof returns `false` with the
slice untouched; a verifying proof returns `true` and rewrites exactly the
`height+1` nodes on the root-to-leaf path designated by the proof's path
(node at depth `j` receiving the recomputed subtree hash, the leaf position
receiving the new leaf hash), leaving every other index unchanged. -/
theorem C9_swap_frame (t : List Hash) (p : Proof) (newLeaf root : Hash)
    (hsib : p.sibling_hashes.length = p.path.length)
    (hlen : t.length = 2 ^ (p.path.length + 1) - 1)
    (hroot : root_hash t = some root) :
    (Proof.verify p root = some false →
      TreeRefMut.swap t p newLeaf = some (t, false)) ∧
    (Proof.verify p root = some true →
      ∃ t2, TreeRefMut.swap t p newLeaf = some (t2, true) ∧
        t2.length = t.length ∧
        (∀ i, i ∉ pathPositions 0 p.path →
          t2.getD i (Hash.raw []) = t.getD i (Hash.raw [])) ∧
        (∀ j, j ≤ p.path.length →
          t2.getD ((pathPositions 0 p.path).getD j 0) (Hash.raw []) =
            specNodeValue p newLeaf j) ∧
        t2.getD ((pathPositions 0 p.path).getD p.path.length 0)
            (Hash.raw []) = newLeaf) := by
  have hpow1 : (1 : Nat) ≤ 2 ^ p.path.length := Nat.one_le_two_pow
  have hpow2 : (2 : Nat) ^ (p.path.length + 1) = 2 * 2 ^ p.path.length := by
    ring
  constructor
  · intro hver
    unfold TreeRefMut.swap
    simp only [Option.bind_eq_bind]
    rw [hroot]
    simp only [Option.some_bind]
    rw [hver]
    simp only [Option.some_bind, Bool.not_false, if_pos]
  · intro hver
    cases hR : (buildNewHashes (p.path.reverse.zip p.sibling_hashes.reverse)
        newLeaf).reverse with
    | nil =>
      exfalso
      have hcontra := congrArg List.length hR
      rw [List.length_reverse, buildNewHashes_length] at hcontra
      simp at hcontra
    | cons top rest =>
      have hrest : rest.length = p.path.length := by
        have hc := congrArg List.length hR
        rw [List.length_reverse, buildNewHashes_length] at hc
        have hss : p.path.reverse.zip p.sibling_hashes.reverse =
            (p.path.zip p.sibling_hashes).reverse :=
          zip_reverse_eq _ _ hsib.symm
        rw [hss, List.length_reverse, List.length_zip, hsib,
          Nat.min_self] at hc
        simp only [List.length_cons] at hc
        omega
      have hidx2 : t.length - 1 = 0 + 2 ^ (p.path.length + 1) - 2 := by
        omega
      have hlv : TreeRef.leaves t = 2 ^ p.path.length := by
        unfold TreeRef.leaves
        omega
      obtain ⟨t2, hsw, hlen2, hframe, hvals⟩ := swapWrites_spec p.path rest 0
        (t.set (0 + 2 ^ (p.path.length + 1) - 2) top) hrest
        (by rw [List.length_set]; omega)
      rw [List.length_set] at hlen2
      have heq : TreeRefMut.swap t p newLeaf = some (t2, true) := by
        unfold TreeRefMut.swap
        simp only [Option.bind_eq_bind]
        rw [hroot]
        simp only [Option.some_bind]
        rw [hver]
        simp only [Option.some_bind, Bool.not_true, Bool.false_eq_true,
          if_false]
        try dsimp only
        rw [hR]
        try dsimp only
        rw [hidx2, hlv, hsw]
        rfl
      have hidxlt : 0 + 2 ^ (p.path.length + 1) - 2 < t.length := by omega
      have hframe2 : ∀ i, i ∉ pathPositions 0 p.path →
          t2.getD i (Hash.raw []) = t.getD i (Hash.raw []) := by
        intro i hi
        have hi2 : i ∉ (pathPositions 0 p.path).drop 1 := by
          intro hmem
          exact hi (List.drop_subset _ _ hmem)
        have hne : i ≠ 0 + 2 ^ (p.path.length + 1) - 2 := by
          intro he
          exact hi (he ▸ pathPositions_head_mem p.path 0)
        rw [hframe i hi2, getD_set_ne _ _ _ _ _ hne]
      have hvalsAll : ∀ j, j ≤ p.path.length →
          t2.getD ((pathPositions 0 p.path).getD j 0) (Hash.raw []) =
            specNodeValue p newLeaf j := by
        intro j hj
        cases j with
        | zero =>
          rw [pathPositions_getD_zero]
          rw [hframe _ (pathPositions_head_notin_tail p.path 0)]
          rw [getD_set_self _ _ _ _ hidxlt]
          have h0 := buildNewHashes_reverse_getD p newLeaf 0 hsib (by omega)
          rw [hR, List.getD_cons_zero] at h0
          exact h0
        | succ j =>
          have hjlt : j < p.path.length := by omega
          have hj1 := buildNewHashes_reverse_getD p newLeaf (j + 1) hsib hj
          rw [hR, List.getD_cons_succ] at hj1
          rw [hvals j hjlt]
          exact hj1
      exact ⟨t2, heq, hlen2, hframe2, hvalsAll,
        by rw [hvalsAll p.path.length (le_refl _),
          specNodeValue_last p newLeaf hsib]⟩

/-- Witness for C9: on the two-leaf tree `[leaf [0], leaf [1], node]` with a
well-formed verifying proof for leaf `[0]`, swap rewrites exactly the root
and the left leaf position. -/
theorem C9_witness :
    ([hash_leaf [1]] : List Hash).length = ([false] : List Bool).length ∧
    ([hash_leaf [0], hash_leaf [1],
      hash_intermediate (hash_leaf [0]) (hash_leaf [1])] : List Hash).length =
      2 ^ (([false] : List Bool).length + 1) - 1 ∧
    root_hash [hash_leaf [0], hash_leaf [1],
      hash_intermediate (hash_leaf [0]) (hash_leaf [1])] =
      some (hash_intermediate (hash_leaf [0]) (hash_leaf [1])) ∧
    ((Proof.verify ⟨[false], [0], [hash_leaf [1]]⟩
        (hash_intermediate (hash_leaf [0]) (hash_leaf [1])) = some false →
      TreeRefMut.swap [hash_leaf [0], hash_leaf [1],
          hash_intermediate (hash_leaf [0]) (hash_leaf [1])]
          ⟨[false], [0], [hash_leaf [1]]⟩ (Hash.raw [9]) =
        some ([hash_leaf [0], hash_leaf [1],
          hash_intermediate (hash_leaf [0]) (hash_leaf [1])], false)) ∧
     (Proof.verify ⟨[false], [0], [hash_leaf [1]]⟩
        (hash_intermediate (hash_leaf [0]) (hash_leaf [1])) = some true →
      ∃ t2, TreeRefMut.swap [hash_leaf [0], hash_leaf [1],
          hash_intermediate (hash_leaf [0]) (hash_leaf [1])]
          ⟨[false], [0], [hash_leaf [1]]⟩ (Hash.raw [9]) = some (t2, true) ∧
        t2.length = ([hash_leaf [0], hash_leaf [1],
          hash_intermediate (hash_leaf [0]) (hash_leaf [1])] :
            List Hash).length ∧
        (∀ i, i ∉ pathPositions 0 [false] →
          t2.getD i (Hash.raw []) =
            ([hash_leaf [0], hash_leaf [1],
              hash_intermediate (hash_leaf [0]) (hash_leaf [1])] :
                List Hash).getD i (Hash.raw [])) ∧
        (∀ j, j ≤ ([false] : List Bool).length →
          t2.getD ((pathPositions 0 [false]).getD j 0) (Hash.raw []) =
            specNodeValue ⟨[false], [0], [hash_leaf [1]]⟩ (Hash.raw [9]) j) ∧
        t2.getD ((pathPositions 0 [false]).getD
            ([false] : List Bool).length 0) (Hash.raw []) = Hash.raw [9])) :=
  ⟨by decide, by decide, by decide,
    C9_swap_frame
      [hash_leaf [0], hash_leaf [1],
        hash_intermediate (hash_leaf [0]) (hash_leaf [1])]
      ⟨[false], [0], [hash_leaf [1]]⟩ (Hash.raw [9])
      (hash_intermediate (hash_leaf [0]) (hash_leaf [1]))
      (by decide) (by decide) (by decide)⟩

end Utx
